import Mathlib

/-!
# Verification of the family-tree-vue layout engine

Shallow embedding of the layout engine of `valluminarias/family-tree-vue`
(sources: `src/utils/treeUtility.ts`, `src/utils/layoutUtils.ts`, the
`Tree.vue` layout watcher / link synthesis, and the `FamilyTree` store class)
together with proofs about the embedded definitions.

Modelling conventions, used throughout and noted at each definition:

* JavaScript objects are identified with their `id` and resolved through a
  registry list (the store keeps all nodes in a `Map` keyed by `id`, and every
  reference the engine follows carries a unique `id`), except for the generic
  clone utility, which is modelled over an explicit heap of addresses because
  its contract is about object references, not ids.
* JavaScript numbers are modelled as `ℚ`: every coordinate the engine
  produces from finite inputs is a rational, and the claims under study are
  about finite coordinates.
* Optional `children` / `partners` fields are modelled as plain lists: the
  store initialises both to `[]` on every node it creates, and at every use
  site in the engine an absent field behaves exactly like an empty array
  (`if (node.children)`, `?.length ?? …`, `|| []`, `?.some(…)`).
-/

/-- A positioned layout node, the engine-internal node shape
(`PositionedTreeNode` in `src/lib/FamilyTree.ts`): object references are
modelled as ids per the registry convention. -/
structure PNode where
  id : String
  x : ℚ
  y : ℚ
  depth : Nat
  parent : Option String
  children : List String
  partners : List String
  coParentId : Option String
  deriving DecidableEq

/-- A rendered connector segment (`TreeLink`).  The source leaves `hasArrow`
absent for non-arrowed links; absent is modelled as `false`. -/
structure TreeLink where
  id : String
  x1 : ℚ
  y1 : ℚ
  x2 : ℚ
  y2 : ℚ
  hasArrow : Bool := false
  deriving DecidableEq

/-- The engine output (`PositionedTreeData`). -/
structure PositionedTreeData where
  nodes : List PNode
  links : List TreeLink
  width : ℚ
  height : ℚ
  deriving DecidableEq

/-- Resolve an id in a node list, as `new Map(nodes.map(n => [n.id, n])).get`
does in the source (ids are unique in every state the engine builds, and
`Map` construction keeps the last binding; `find?` keeps the first — the two
agree on duplicate-free lists, which is the only case the claims need). -/
def resolveNode (nodes : List PNode) (i : String) : Option PNode :=
  nodes.find? (fun n => n.id = i)

/-! ## `preventOverlap` (src/utils/layoutUtils.ts, lines 90–103)

The source sorts the level array in place by `x` and then sweeps left to
right, pushing each node right to `prev.x + NODE_WIDTH + X_SPACING` whenever
it is closer than that to its predecessor.  The in-place mutation is modelled
by returning the updated list. -/

/-- The left-to-right sweep of `preventOverlap`: `prev` is the (already
updated) previous element, and each current element is pushed right when
`curr.x < prev.x + NODE_WIDTH + X_SPACING`. -/
def sweepRight (W S : ℚ) : PNode → List PNode → List PNode
  | _, [] => []
  | prev, c :: rest =>
    let c' := if c.x < prev.x + W + S then { c with x := prev.x + W + S } else c
    c' :: sweepRight W S c' rest

/-- `preventOverlap(level, NODE_WIDTH, X_SPACING)`: sort ascending by `x`,
then sweep. -/
def preventOverlap (level : List PNode) (W S : ℚ) : List PNode :=
  match level.mergeSort (fun a b => a.x ≤ b.x) with
  | [] => []
  | a :: rest => a :: sweepRight W S a rest

theorem sweepRight_chain (W S : ℚ) (prev : PNode) (rest : List PNode) :
    List.Chain (fun a b => a.x + W + S ≤ b.x) prev (sweepRight W S prev rest) := by
  induction rest generalizing prev with
  | nil => exact List.Chain.nil
  | cons c rest ih =>
    simp only [sweepRight]
    refine List.Chain.cons ?_ (ih _)
    by_cases h : c.x < prev.x + W + S
    · simp [h]
    · simp only [h, if_false]
      linarith [not_lt.mp h]

theorem chain_gap_le (W S : ℚ) (hWS : 0 ≤ W + S) (prev : PNode) (l : List PNode)
    (h : List.Chain (fun a b => a.x + W + S ≤ b.x) prev l) :
    ∀ b ∈ l, prev.x + W + S ≤ b.x := by
  induction l generalizing prev with
  | nil => intro b hb; cases hb
  | cons c rest ih =>
    cases h with
    | cons hpc hrest =>
      intro b hb
      rcases List.mem_cons.mp hb with rfl | hb
      · exact hpc
      · have := ih c hrest b hb
        linarith

theorem chain_gap_sorted (W S : ℚ) (hWS : 0 ≤ W + S) (l : List PNode)
    (h : List.Chain' (fun a b => a.x + W + S ≤ b.x) l) :
    l.Sorted (fun a b => a.x ≤ b.x) := by
  induction l with
  | nil => exact List.sorted_nil
  | cons a rest ih =>
    have hchain : List.Chain (fun a b => a.x + W + S ≤ b.x) a rest := h
    have hrest : List.Chain' (fun a b => a.x + W + S ≤ b.x) rest := by
      cases rest with
      | nil => exact List.chain'_nil
      | cons b l => cases hchain with | cons hab hbl => exact hbl
    refine List.sorted_cons.mpr ⟨?_, ih hrest⟩
    intro b hb
    have := chain_gap_le W S hWS a rest hchain b hb
    linarith

/-- C2: after one call to `preventOverlap`, the resulting level is sorted
ascending by `x` and every adjacent pair `(prev, next)` satisfies
`next.x ≥ prev.x + NODE_WIDTH + X_SPACING`; hence the single left-to-right
sweep produces a non-overlapping sequence. -/
theorem preventOverlap_no_overlap (level : List PNode) (W S : ℚ)
    (hW : 0 ≤ W) (hS : 0 ≤ S) :
    List.Chain' (fun a b => a.x + W + S ≤ b.x) (preventOverlap level W S) ∧
      (preventOverlap level W S).Sorted (fun a b => a.x ≤ b.x) := by
  have hWS : 0 ≤ W + S := by linarith
  have hchain : List.Chain' (fun a b => a.x + W + S ≤ b.x) (preventOverlap level W S) := by
    unfold preventOverlap
    cases level.mergeSort (fun a b => a.x ≤ b.x) with
    | nil => exact List.chain'_nil
    | cons a rest => exact sweepRight_chain W S a rest
  exact ⟨hchain, chain_gap_sorted W S hWS _ hchain⟩

/-- Witness for C2 at a concrete overlapping level. -/
theorem preventOverlap_no_overlap_witness :
    (0:ℚ) ≤ 120 ∧ (0:ℚ) ≤ 40 ∧
      (List.Chain' (fun a b => a.x + 120 + 40 ≤ b.x)
        (preventOverlap
          [⟨"a", 0, 0, 0, none, [], [], none⟩,
           ⟨"b", 50, 0, 0, none, [], [], none⟩,
           ⟨"c", 30, 0, 0, none, [], [], none⟩] 120 40) ∧
      (preventOverlap
          [⟨"a", 0, 0, 0, none, [], [], none⟩,
           ⟨"b", 50, 0, 0, none, [], [], none⟩,
           ⟨"c", 30, 0, 0, none, [], [], none⟩] 120 40).Sorted
        (fun a b => a.x ≤ b.x)) :=
  ⟨by norm_num, by norm_num,
    preventOverlap_no_overlap
      [⟨"a", 0, 0, 0, none, [], [], none⟩,
       ⟨"b", 50, 0, 0, none, [], [], none⟩,
       ⟨"c", 30, 0, 0, none, [], [], none⟩] 120 40 (by norm_num) (by norm_num)⟩

/-! ## `positionRootNodes` (src/utils/layoutUtils.ts, lines 77–88)

The source computes `numNodesInLevel = level.length` (all nodes of the level,
parented or not) and then walks `level.filter(node => !node.parent)` with the
filtered index, assigning
`x = (totalWidth / (numNodesInLevel + 1)) * (index + 1) - NODE_WIDTH / 2` and
`y = y`.  The in-place mutation of the filtered objects is modelled by
rebuilding the list, threading the filtered index `k`. -/

def positionRootNodesGo (totalWidth W y : ℚ) (numNodesInLevel : Nat) (k : Nat) :
    List PNode → List PNode
  | [] => []
  | n :: rest =>
    if n.parent = none then
      { n with
          x := (totalWidth / ((numNodesInLevel : ℚ) + 1)) * ((k : ℚ) + 1) - W / 2,
          y := y } :: positionRootNodesGo totalWidth W y numNodesInLevel (k + 1) rest
    else n :: positionRootNodesGo totalWidth W y numNodesInLevel k rest

/-- `positionRootNodes(level, totalWidth, NODE_WIDTH, y)`. -/
def positionRootNodes (level : List PNode) (totalWidth W y : ℚ) : List PNode :=
  positionRootNodesGo totalWidth W y level.length 0 level

theorem positionRootNodesGo_length (T W y : ℚ) (m : Nat) (l : List PNode) (k : Nat) :
    (positionRootNodesGo T W y m k l).length = l.length := by
  induction l generalizing k with
  | nil => rfl
  | cons n rest ih =>
    by_cases h : n.parent = none <;>
      simp [positionRootNodesGo, h, ih]

theorem positionRootNodesGo_getElem (T W y : ℚ) (m : Nat) (l : List PNode) :
    ∀ (k i : Nat),
      (positionRootNodesGo T W y m k l)[i]? =
        (l[i]?).map (fun n =>
          if n.parent = none then
            { n with
                x := (T / ((m : ℚ) + 1)) *
                  ((k : ℚ) + ((l.take i).countP fun n => n.parent = none) + 1) - W / 2,
                y := y }
          else n) := by
  induction l with
  | nil => intro k i; simp [positionRootNodesGo]
  | cons n rest ih =>
    intro k i
    by_cases hn : n.parent = none
    · simp only [positionRootNodesGo]; rw [if_pos hn]
      cases i with
      | zero => simp [hn]
      | succ i =>
        simp only [List.getElem?_cons_succ, List.take_succ_cons, List.countP_cons, hn,
          decide_True, if_true, ite_true]
        rw [ih (k + 1) i]
        apply Option.map_congr
        intro a _
        by_cases hp : a.parent = none <;>
          simp only [hp, if_true, if_false, ite_true, ite_false, PNode.mk.injEq]
        refine ⟨trivial, ?_, trivial, trivial, trivial, trivial, trivial, trivial⟩
        push_cast
        ring
    · simp only [positionRootNodesGo]; rw [if_neg hn]
      cases i with
      | zero => simp [hn]
      | succ i =>
        simp only [List.getElem?_cons_succ, List.take_succ_cons, List.countP_cons, hn,
          decide_False, if_false, ite_false]
        rw [ih k i]
        apply Option.map_congr
        intro a _
        by_cases hp : a.parent = none <;>
          simp [hp]

/-- C5 (amended): in `positionRootNodes` a parentless node at index `i` among
the parentless nodes of the level is placed at
`x = (totalWidth / (numNodesInLevel + 1)) * (i + 1) - nodeWidth / 2` where
`numNodesInLevel` is the length of the WHOLE level (parented nodes included,
this is the divisor the code uses), and `y` is set to the level's fixed y;
parented nodes are left unchanged. -/
theorem positionRootNodes_spread (level : List PNode) (T W y : ℚ) :
    (positionRootNodes level T W y).length = level.length ∧
      ∀ i : Nat,
        (positionRootNodes level T W y)[i]? =
          (level[i]?).map (fun n =>
            if n.parent = none then
              { n with
                  x := (T / ((level.length : ℚ) + 1)) *
                    (((level.take i).countP fun n => n.parent = none) + 1) - W / 2,
                  y := y }
            else n) := by
  refine ⟨positionRootNodesGo_length T W y level.length level 0, fun i => ?_⟩
  rw [positionRootNodes, positionRootNodesGo_getElem]
  apply Option.map_congr
  intro a _
  by_cases hp : a.parent = none <;>
    simp only [hp, if_true, if_false, ite_true, ite_false, PNode.mk.injEq]
  refine ⟨trivial, ?_, trivial, trivial, trivial, trivial, trivial, trivial⟩
  push_cast
  ring

/-- C5 counterexample to the claim as stated: with one parented and one
parentless node in the level, the code divides `totalWidth` by
`level.length + 1 = 3`, not by `(number of parentless nodes) + 1 = 2`:
node `"a"` (index 0 of 1 parentless node) receives `x = (300/3)*1 - 60 = 40`,
but the claimed formula `(totalWidth/(n+1))*(i+1) - nodeWidth/2` with `n = 1`
parentless node gives `(300/2)*1 - 60 = 90`. -/
theorem positionRootNodes_claim_counterexample :
    (positionRootNodes
        [⟨"a", 0, 0, 0, none, [], [], none⟩,
         ⟨"b", 0, 0, 1, some "p", [], [], none⟩] 300 120 0).map PNode.x = [40, 0] ∧
      ¬ ((40 : ℚ) = (300 / ((1 : ℚ) + 1)) * (0 + 1) - 120 / 2) := by
  constructor
  · simp [positionRootNodes, positionRootNodesGo]
    norm_num
  · norm_num

/-! ## Sibling blocks

Two block builders exist in the repository.  `buildLayoutBlocks`
(src/utils/layoutUtils.ts, lines 25–46) keeps a `used` set containing the
child AND every consumed partner, so a node can land in at most one block.
The layout watcher in Tree.vue (the horizontal placement pass actually
executed, lines 253–264 of the component) inlines a variant whose `seen` set
receives only the anchor child's id and whose partner list is not filtered
against `seen` at all.  Blocks are modelled as lists of ids; partner object
references are ids per the registry convention. -/

/-- Partner-consumption loop of `buildLayoutBlocks`: each partner not yet in
`used` is appended to the block and added to `used`. -/
def collectPartners (used : List String) : List String → List String × List String
  | [] => ([], used)
  | p :: ps =>
    if p ∈ used then collectPartners used ps
    else
      let (blk, used') := collectPartners (p :: used) ps
      (p :: blk, used')

/-- `buildLayoutBlocks` (src/utils/layoutUtils.ts): a child already in `used`
is skipped; otherwise its block is the child followed by its not-yet-used
partners, all of which are recorded in `used`. -/
def buildLayoutBlocksGo (used : List String) : List PNode → List (List String)
  | [] => []
  | child :: rest =>
    if child.id ∈ used then buildLayoutBlocksGo used rest
    else
      let (ps, used') := collectPartners (child.id :: used) child.partners
      (child.id :: ps) :: buildLayoutBlocksGo used' rest

def buildLayoutBlocks (siblings : List PNode) : List (List String) :=
  buildLayoutBlocksGo [] siblings

/-- The INLINE block builder of the Tree.vue layout watcher: `seen` receives
only `child.id`; the partner list is spread into the block unfiltered
(`const block = [child, ...partners]`). -/
def layoutBlocksInline (seen : List String) : List PNode → List (List String)
  | [] => []
  | child :: rest =>
    if child.id ∈ seen then layoutBlocksInline seen rest
    else (child.id :: child.partners) :: layoutBlocksInline (child.id :: seen) rest

/-- C4 (code bug): in the horizontal placement pass actually executed
(the inline builder of the Tree.vue watcher), a sibling group of two mutual
partners `A`, `B` is split into TWO blocks `[A, B]` and `[B, A]` — each node
is placed in two blocks, double-counted — whereas the exported
`buildLayoutBlocks` utility (which the claim and the spec describe) produces
the single block `[A, B]` on the same input. -/
theorem layoutBlocksInline_duplicates_shared_partner :
    layoutBlocksInline []
        [⟨"A", 0, 0, 1, some "P", [], ["B"], none⟩,
         ⟨"B", 0, 0, 1, some "P", [], ["A"], none⟩] = [["A", "B"], ["B", "A"]] ∧
      ((layoutBlocksInline []
          [⟨"A", 0, 0, 1, some "P", [], ["B"], none⟩,
           ⟨"B", 0, 0, 1, some "P", [], ["A"], none⟩]).countP
        (fun blk => "A" ∈ blk)) = 2 ∧
      buildLayoutBlocks
        [⟨"A", 0, 0, 1, some "P", [], ["B"], none⟩,
         ⟨"B", 0, 0, 1, some "P", [], ["A"], none⟩] = [["A", "B"]] := by
  refine ⟨?_, ?_, ?_⟩ <;> rfl

/-! ## `traverseAndAnnotateTree` (src/utils/treeUtility.ts, lines 29–79)

Breadth-first traversal over the cloned registry.  A queue entry in the
source is `{ node, depth, parent }`; in the model it carries a ghost
provenance tag recording HOW the entry was enqueued (root entry, child edge,
or partner edge).  The provenance does not influence the computation — the
`parent` field the source stores is exactly `Prov.parentRef` (the enqueuing
node for a child edge, `null` for the root entry and for partner edges,
line 72 of the source) — it only lets theorems speak about nodes first
reached through a partner edge. -/

/-- Ghost provenance of a queue entry. -/
inductive Prov where
  | root : Prov
  | childOf (p : String) : Prov
  | partnerOf (q : String) : Prov
  deriving DecidableEq

/-- The `parent` field the source stores for an entry of this provenance. -/
def Prov.parentRef : Prov → Option String
  | .childOf p => some p
  | _ => none

/-- A queue entry `{ node, depth, parent }` (with `parent` replaced by the
richer ghost provenance it is a projection of). -/
structure QEntry where
  node : String
  depth : Nat
  prov : Prov
  deriving DecidableEq

/-- Traversal output: the flat annotated node list (each node paired with
its ghost provenance) and the insertion-ordered `nodesByDepth` map. -/
structure TravResult where
  nodes : List (PNode × Prov)
  nodesByDepth : List (Nat × List String)
  deriving DecidableEq

/-- `Map` update `if (!nodesByDepth.has(depth)) nodesByDepth.set(depth, []);
nodesByDepth.get(depth).push(node)`: JavaScript `Map` keeps insertion order,
so a new key is appended at the end and an existing bucket is extended in
place. -/
def pushDepth : List (Nat × List String) → Nat → String → List (Nat × List String)
  | [], d, i => [(d, [i])]
  | (k, l) :: rest, d, i =>
    if k = d then (k, l ++ [i]) :: rest else (k, l) :: pushDepth rest d i

/-- The annotation the source performs on the dequeued node object:
`node.depth = depth; node.parent = parent`.  The dequeued entry holds the
node object itself in the source; the model resolves its id in the registry
(the default is unreachable there, since every enqueued reference is an
actual node object). -/
def annotate (g : List PNode) (e : QEntry) : PNode :=
  let base := (resolveNode g e.node).getD ⟨e.node, 0, 0, 0, none, [], [], none⟩
  { base with depth := e.depth, parent := e.prov.parentRef }

/-- `for (const child of node.children) if (child && !visited.has(child.id))
queue.push({node: child, depth: depth + 1, parent: node})`. -/
def enqueueChildren (n : PNode) (d : Nat) (visited : List String) : List QEntry :=
  (n.children.filter fun c => ¬ c ∈ visited).map fun c => ⟨c, d + 1, .childOf n.id⟩

/-- `for (const partner of node.partners) if (partner && !visited.has(partner.id))
queue.push({node: partner, depth: depth, parent: null})`. -/
def enqueuePartners (n : PNode) (d : Nat) (visited : List String) : List QEntry :=
  (n.partners.filter fun c => ¬ c ∈ visited).map fun c => ⟨c, d, .partnerOf n.id⟩

/-- Number of registry ids not yet visited; the termination measure's first
component. -/
def unvisitedCount (g : List PNode) (visited : List String) : Nat :=
  ((g.map PNode.id).filter fun i => ¬ i ∈ visited).length

theorem filter_notMem_cons_length_le (x : String) (visited : List String) :
    ∀ l : List String,
      (l.filter fun i => ¬ i ∈ x :: visited).length ≤
        (l.filter fun i => ¬ i ∈ visited).length := by
  intro l
  induction l with
  | nil => simp
  | cons a l ih =>
    by_cases ha : a ∈ visited
    · simp only [List.filter_cons]
      have h1 : (decide (¬ a ∈ x :: visited)) = false := by simp [ha]
      have h2 : (decide (¬ a ∈ visited)) = false := by simp [ha]
      simp only [h1, h2, Bool.false_eq_true, if_false]
      exact ih
    · by_cases hax : a = x
      · simp only [List.filter_cons]
        have h1 : (decide (¬ a ∈ x :: visited)) = false := by simp [hax]
        have h2 : (decide (¬ a ∈ visited)) = true := by simpa using ha
        simp only [h1, h2, Bool.false_eq_true, if_false, if_true, List.length_cons]
        omega
      · simp only [List.filter_cons]
        have h1 : (decide (¬ a ∈ x :: visited)) = true := by simp [hax, ha]
        have h2 : (decide (¬ a ∈ visited)) = true := by simpa using ha
        simp only [h1, h2, if_true, List.length_cons]
        omega

theorem filter_notMem_cons_length_lt (x : String) (visited : List String)
    (hnv : ¬ x ∈ visited) :
    ∀ l : List String, x ∈ l →
      (l.filter fun i => ¬ i ∈ x :: visited).length <
        (l.filter fun i => ¬ i ∈ visited).length := by
  intro l
  induction l with
  | nil => intro h; cases h
  | cons a l ih =>
    intro hx
    by_cases hax : a = x
    · subst hax
      simp only [List.filter_cons]
      have h1 : (decide (¬ a ∈ a :: visited)) = false := by simp
      have h2 : (decide (¬ a ∈ visited)) = true := by simpa using hnv
      simp only [h1, h2, Bool.false_eq_true, if_false, if_true, List.length_cons]
      exact Nat.lt_succ_of_le (filter_notMem_cons_length_le a visited l)
    · have hx' : x ∈ l := by
        rcases List.mem_cons.mp hx with h | h
        · exact absurd h.symm hax
        · exact h
      have hstep := ih hx'
      simp only [List.filter_cons]
      by_cases ha : a ∈ visited
      · have h1 : (decide (¬ a ∈ x :: visited)) = false := by simp [ha]
        have h2 : (decide (¬ a ∈ visited)) = false := by simp [ha]
        simp only [h1, h2, Bool.false_eq_true, if_false]
        exact hstep
      · have h1 : (decide (¬ a ∈ x :: visited)) = true := by simp [hax, ha]
        have h2 : (decide (¬ a ∈ visited)) = true := by simpa using ha
        simp only [h1, h2, if_true, List.length_cons]
        omega

theorem unvisitedCount_cons_lt (g : List PNode) (visited : List String) (x : String)
    (hx : x ∈ g.map PNode.id) (hnv : ¬ x ∈ visited) :
    unvisitedCount g (x :: visited) < unvisitedCount g visited :=
  filter_notMem_cons_length_lt x visited hnv (g.map PNode.id) hx

theorem unvisitedCount_cons_eq (g : List PNode) (visited : List String) (x : String)
    (hx : resolveNode g x = none) :
    unvisitedCount g (x :: visited) = unvisitedCount g visited := by
  have hids : ∀ n ∈ g, ¬ (n.id = x) := by
    intro n hn
    have := List.find?_eq_none.mp hx n hn
    simpa using this
  unfold unvisitedCount
  refine congrArg List.length (List.filter_congr ?_)
  intro i hi
  rcases List.mem_map.mp hi with ⟨n, hn, rfl⟩
  have hne : ¬ (n.id = x) := hids n hn
  simp [List.mem_cons, hne]

/-- The BFS loop of `traverseAndAnnotateTree`.  Each iteration dequeues one
entry; an already-visited id is skipped, otherwise the node is annotated,
appended to the flat list and its depth bucket, and its not-yet-visited
children (at `depth + 1`) and partners (at the same depth) are enqueued. -/
def bfsTraverse (g : List PNode) (visited : List String) (outNodes : List (PNode × Prov))
    (byDepth : List (Nat × List String)) (queue : List QEntry) : TravResult :=
  match queue with
  | [] => ⟨outNodes, byDepth⟩
  | e :: rest =>
    if hv : e.node ∈ visited then bfsTraverse g visited outNodes byDepth rest
    else
      match hf : resolveNode g e.node with
      | none =>
        bfsTraverse g (e.node :: visited) (outNodes ++ [(annotate g e, e.prov)])
          (pushDepth byDepth e.depth e.node) rest
      | some n =>
        bfsTraverse g (e.node :: visited) (outNodes ++ [(annotate g e, e.prov)])
          (pushDepth byDepth e.depth e.node)
          (rest ++ enqueueChildren n e.depth (e.node :: visited)
            ++ enqueuePartners n e.depth (e.node :: visited))
termination_by (unvisitedCount g visited, queue.length)
decreasing_by
  · apply Prod.Lex.right
    simp
  · rw [unvisitedCount_cons_eq g visited e.node hf]
    apply Prod.Lex.right
    simp
  · apply Prod.Lex.left
    apply unvisitedCount_cons_lt g visited e.node
    · rcases List.find?_some hf with hid
      have : n.id = e.node := by simpa using hid
      exact this ▸ List.mem_map.mpr ⟨n, List.mem_of_find?_eq_some hf, rfl⟩
    · exact hv

/-- `traverseAndAnnotateTree(root)` on the registry `g`. -/
def traverseAndAnnotateTree (g : List PNode) (root : String) : TravResult :=
  bfsTraverse g [] [] [] [⟨root, 0, .root⟩]

/-! ### Invariants of the BFS loop -/

/-- Soundness of a (depth, provenance) pair against the already-annotated
output: a child-edge entry is one deeper than its recorded enqueuer, a
partner-edge entry shares its enqueuer's depth, the root entry has depth 0. -/
def ProvOk (out : List (PNode × Prov)) (d : Nat) : Prov → Prop
  | .root => d = 0
  | .childOf p => ∃ b ∈ out, b.1.id = p ∧ d = b.1.depth + 1
  | .partnerOf q => ∃ b ∈ out, b.1.id = q ∧ d = b.1.depth

theorem ProvOk.mono {out : List (PNode × Prov)} (l : List (PNode × Prov)) {d : Nat}
    {pr : Prov} (h : ProvOk out d pr) : ProvOk (out ++ l) d pr := by
  cases pr with
  | root => exact h
  | childOf p =>
    rcases h with ⟨b, hb, h1, h2⟩
    exact ⟨b, List.mem_append_left _ hb, h1, h2⟩
  | partnerOf q =>
    rcases h with ⟨b, hb, h1, h2⟩
    exact ⟨b, List.mem_append_left _ hb, h1, h2⟩

theorem annotate_id (g : List PNode) (e : QEntry) : (annotate g e).id = e.node := by
  unfold annotate
  cases hf : resolveNode g e.node with
  | none => simp
  | some n =>
    have hn : n.id = e.node := by
      have := List.find?_some hf
      simpa using this
    simpa using hn

theorem annotate_depth (g : List PNode) (e : QEntry) : (annotate g e).depth = e.depth := rfl

theorem annotate_parent (g : List PNode) (e : QEntry) :
    (annotate g e).parent = e.prov.parentRef := rfl

theorem pushDepth_keys (bd : List (Nat × List String)) (d : Nat) (i : String) :
    (pushDepth bd d i).map Prod.fst =
      if d ∈ bd.map Prod.fst then bd.map Prod.fst else bd.map Prod.fst ++ [d] := by
  induction bd with
  | nil => simp [pushDepth]
  | cons p rest ih =>
    obtain ⟨k, l⟩ := p
    by_cases hk : k = d
    · subst hk
      simp [pushDepth]
    · simp only [pushDepth, if_neg hk, List.map_cons]
      rw [ih]
      have hkd : ¬ (d = k) := fun h => hk h.symm
      by_cases hd : d ∈ rest.map Prod.fst <;>
        simp [hd, List.mem_cons, hkd]

theorem pushDepth_mem_cases (d : Nat) (i : String) :
    ∀ (bd : List (Nat × List String)), (bd.map Prod.fst).Nodup →
      ∀ p' ∈ pushDepth bd d i,
        (p' ∈ bd ∧ p'.1 ≠ d) ∨
        (∃ l, (d, l) ∈ bd ∧ p' = (d, l ++ [i])) ∨
        ((¬ d ∈ bd.map Prod.fst) ∧ p' = (d, [i])) := by
  intro bd
  induction bd with
  | nil =>
    intro _ p' hp'
    right; right
    refine ⟨by simp, ?_⟩
    simpa [pushDepth] using hp'
  | cons p rest ih =>
    obtain ⟨k, l⟩ := p
    intro hnd p' hp'
    have hmapcons : (((k, l) :: rest).map Prod.fst) = k :: rest.map Prod.fst := rfl
    rw [hmapcons] at hnd
    have hknotin : ¬ k ∈ rest.map Prod.fst := (List.nodup_cons.mp hnd).1
    have hndrest : (rest.map Prod.fst).Nodup := (List.nodup_cons.mp hnd).2
    by_cases hk : k = d
    · subst hk
      simp only [pushDepth, if_pos rfl] at hp'
      rcases List.mem_cons.mp hp' with rfl | hmem
      · right; left
        exact ⟨l, List.mem_cons_self _ _, rfl⟩
      · left
        refine ⟨List.mem_cons_of_mem _ hmem, ?_⟩
        intro hfst
        exact hknotin (hfst ▸ List.mem_map_of_mem Prod.fst hmem)
    · simp only [pushDepth, if_neg hk] at hp'
      rcases List.mem_cons.mp hp' with rfl | hmem
      · left
        exact ⟨List.mem_cons_self _ _, hk⟩
      · rcases ih hndrest p' hmem with ⟨h1, h2⟩ | ⟨l', h1, h2⟩ | ⟨h1, h2⟩
        · exact Or.inl ⟨List.mem_cons_of_mem _ h1, h2⟩
        · exact Or.inr (Or.inl ⟨l', List.mem_cons_of_mem _ h1, h2⟩)
        · right; right
          refine ⟨?_, h2⟩
          simp only [List.map_cons, List.mem_cons]
          rintro (h | h)
          · exact hk h.symm
          · exact h1 h

/-- The full loop invariant of `bfsTraverse`. -/
structure TravInv (g : List PNode) (visited : List String) (out : List (PNode × Prov))
    (bd : List (Nat × List String)) (queue : List QEntry) : Prop where
  visited_iff : ∀ i, i ∈ visited ↔ ∃ a ∈ out, a.1.id = i
  ids_nodup : (out.map fun a => a.1.id).Nodup
  entry_parent : ∀ a ∈ out, a.1.parent = a.2.parentRef
  entry_prov : ∀ a ∈ out, ProvOk out a.1.depth a.2
  queue_prov : ∀ e ∈ queue, ProvOk out e.depth e.prov
  bd_keys_nodup : (bd.map Prod.fst).Nodup
  bd_buckets : ∀ p ∈ bd, p.2 = (out.filter fun a => a.1.depth = p.1).map fun a => a.1.id
  bd_keys_cover : ∀ d, d ∈ bd.map Prod.fst ↔ ∃ a ∈ out, a.1.depth = d

/-- What C1 asserts of the traversal result: unique flat occurrence, unique
depth bucket, parent-edge depth increment, partner-edge depth sharing. -/
def TravPost (r : TravResult) : Prop :=
  ((r.nodes.map fun a => a.1.id).Nodup) ∧
  ((r.nodesByDepth.map Prod.fst).Nodup) ∧
  (∀ a ∈ r.nodes, a.1.depth ∈ r.nodesByDepth.map Prod.fst) ∧
  (∀ a ∈ r.nodes, ∀ p ∈ r.nodesByDepth,
    p.2.count a.1.id = if p.1 = a.1.depth then 1 else 0) ∧
  (∀ a ∈ r.nodes, ∀ pid, a.1.parent = some pid →
    ∃ b ∈ r.nodes, b.1.id = pid ∧ a.1.depth = b.1.depth + 1) ∧
  (∀ a ∈ r.nodes, ∀ q, a.2 = Prov.partnerOf q →
    ∃ b ∈ r.nodes, b.1.id = q ∧ a.1.depth = b.1.depth)

theorem travPost_of_inv (g : List PNode) (visited : List String)
    (out : List (PNode × Prov)) (bd : List (Nat × List String))
    (inv : TravInv g visited out bd []) : TravPost ⟨out, bd⟩ := by
  refine ⟨inv.ids_nodup, inv.bd_keys_nodup, ?_, ?_, ?_, ?_⟩
  · intro a ha
    exact (inv.bd_keys_cover a.1.depth).mpr ⟨a, ha, rfl⟩
  · intro a ha p hp
    have hbucket := inv.bd_buckets p hp
    have hsub : ((out.filter fun a => a.1.depth = p.1).map fun a => a.1.id).Sublist
        (out.map fun a => a.1.id) :=
      (List.filter_sublist out).map _
    by_cases hpd : p.1 = a.1.depth
    · rw [if_pos hpd, hbucket]
      have hmem : a ∈ out.filter fun a => a.1.depth = p.1 :=
        List.mem_filter.mpr ⟨ha, by simp [hpd]⟩
      exact List.count_eq_one_of_mem (hsub.nodup inv.ids_nodup)
        (List.mem_map_of_mem _ hmem)
    · rw [if_neg hpd, hbucket]
      rw [List.count_eq_zero]
      intro hmem
      rcases List.mem_map.mp hmem with ⟨b, hbf, hbid⟩
      have hbfilter := List.mem_filter.mp hbf
      have hbd : b.1.depth = p.1 := by
        have := hbfilter.2; simpa using this
      have hba : b = a :=
        List.inj_on_of_nodup_map inv.ids_nodup hbfilter.1 ha hbid
      exact hpd (hba ▸ hbd).symm
  · intro a ha pid hparent
    have hpr := inv.entry_parent a ha
    cases hprov : a.2 with
    | root => rw [hprov] at hpr; rw [hpr] at hparent; cases hparent
    | childOf p =>
      rw [hprov] at hpr
      have hppid : p = pid := by
        rw [hpr] at hparent
        simpa [Prov.parentRef] using hparent
      have := inv.entry_prov a ha
      rw [hprov] at this
      subst hppid
      exact this
    | partnerOf q => rw [hprov] at hpr; rw [hpr] at hparent; cases hparent
  · intro a ha q hprov
    have := inv.entry_prov a ha
    rw [hprov] at this
    exact this

theorem enqueue_prov (g : List PNode) (out : List (PNode × Prov)) (e : QEntry) (n : PNode)
    (hf : resolveNode g e.node = some n) (vis : List String) :
    ∀ e' ∈ enqueueChildren n e.depth vis ++ enqueuePartners n e.depth vis,
      ProvOk (out ++ [(annotate g e, e.prov)]) e'.depth e'.prov := by
  have hnid : n.id = e.node := by
    have := List.find?_some hf
    simpa using this
  have hbmem : ((annotate g e, e.prov) : PNode × Prov) ∈ out ++ [(annotate g e, e.prov)] :=
    List.mem_append_right _ (List.mem_singleton_self _)
  have hbid : ((annotate g e, e.prov) : PNode × Prov).1.id = n.id := by
    rw [annotate_id]; exact hnid.symm
  intro e' he'
  rcases List.mem_append.mp he' with hc | hp
  · rcases List.mem_map.mp hc with ⟨c, _, rfl⟩
    exact ⟨(annotate g e, e.prov), hbmem, hbid.symm ▸ rfl, rfl⟩
  · rcases List.mem_map.mp hp with ⟨c, _, rfl⟩
    exact ⟨(annotate g e, e.prov), hbmem, hbid.symm ▸ rfl, rfl⟩

theorem travInv_step (g : List PNode) (visited : List String) (out : List (PNode × Prov))
    (bd : List (Nat × List String)) (e : QEntry) (rest : List QEntry)
    (inv : TravInv g visited out bd (e :: rest)) (hv : ¬ e.node ∈ visited) :
    TravInv g (e.node :: visited) (out ++ [(annotate g e, e.prov)])
      (pushDepth bd e.depth e.node) rest := by
  have hnotout : ¬ ∃ a ∈ out, a.1.id = e.node := fun h => hv ((inv.visited_iff e.node).mpr h)
  have hnnmem : ((annotate g e, e.prov) : PNode × Prov) ∈ out ++ [(annotate g e, e.prov)] :=
    List.mem_append_right _ (List.mem_singleton_self _)
  refine ⟨?_, ?_, ?_, ?_, ?_, ?_, ?_, ?_⟩
  · intro i
    constructor
    · intro hi
      rcases List.mem_cons.mp hi with rfl | hi
      · exact ⟨(annotate g e, e.prov), hnnmem, annotate_id g e⟩
      · rcases (inv.visited_iff i).mp hi with ⟨a, ha, hid⟩
        exact ⟨a, List.mem_append_left _ ha, hid⟩
    · rintro ⟨a, ha, hid⟩
      rcases List.mem_append.mp ha with ha | ha
      · exact List.mem_cons_of_mem _ ((inv.visited_iff i).mpr ⟨a, ha, hid⟩)
      · rcases List.mem_singleton.mp ha with rfl
        rw [← hid, annotate_id]
        exact List.mem_cons_self _ _
  · rw [List.map_append]
    refine List.Nodup.append inv.ids_nodup (by simp) ?_
    intro x hx hx2
    have hxe : x = e.node := by
      rcases List.mem_map.mp hx2 with ⟨a, ha, hid⟩
      rcases List.mem_singleton.mp ha with rfl
      rw [← hid, annotate_id]
    subst hxe
    rcases List.mem_map.mp hx with ⟨a, ha, hid⟩
    exact hnotout ⟨a, ha, hid⟩
  · intro a ha
    rcases List.mem_append.mp ha with ha | ha
    · exact inv.entry_parent a ha
    · rcases List.mem_singleton.mp ha with rfl
      exact annotate_parent g e
  · intro a ha
    rcases List.mem_append.mp ha with ha | ha
    · exact (inv.entry_prov a ha).mono _
    · rcases List.mem_singleton.mp ha with rfl
      exact (inv.queue_prov e (List.mem_cons_self _ _)).mono _
  · intro e' he'
    exact (inv.queue_prov e' (List.mem_cons_of_mem _ he')).mono _
  · rw [pushDepth_keys]
    by_cases hd : e.depth ∈ bd.map Prod.fst
    · rw [if_pos hd]; exact inv.bd_keys_nodup
    · rw [if_neg hd]
      refine List.Nodup.append inv.bd_keys_nodup (by simp) ?_
      intro x hx hx2
      rcases List.mem_singleton.mp hx2 with rfl
      exact hd hx
  · intro p' hp'
    rcases pushDepth_mem_cases e.depth e.node bd inv.bd_keys_nodup p' hp' with
      ⟨h1, h2⟩ | ⟨l, hl, rfl⟩ | ⟨hnk, rfl⟩
    · rw [List.filter_append]
      have hd : ¬ (((annotate g e, e.prov) : PNode × Prov).1.depth = p'.1) := by
        rw [annotate_depth]; exact fun h => h2 h.symm
      have hsingle : ([((annotate g e, e.prov) : PNode × Prov)].filter
          fun a => a.1.depth = p'.1) = [] := by
        simp [hd]
      rw [hsingle, List.append_nil]
      exact inv.bd_buckets p' h1
    · rw [List.filter_append]
      have hd : (((annotate g e, e.prov) : PNode × Prov).1.depth = (e.depth : Nat)) := rfl
      have hsingle : ([((annotate g e, e.prov) : PNode × Prov)].filter
          fun a => a.1.depth = e.depth) = [((annotate g e, e.prov))] := by
        simp [annotate_depth]
      simp only [hsingle, List.map_append]
      have hold := inv.bd_buckets (e.depth, l) hl
      simp only at hold
      rw [← hold]
      simp [annotate_id]
    · rw [List.filter_append]
      have hempty : (out.filter fun a => a.1.depth = e.depth) = [] := by
        rw [List.filter_eq_nil_iff]
        intro a ha
        simp only [decide_eq_true_eq]
        intro hdep
        exact hnk ((inv.bd_keys_cover e.depth).mpr ⟨a, ha, hdep⟩)
      have hsingle : ([((annotate g e, e.prov) : PNode × Prov)].filter
          fun a => a.1.depth = e.depth) = [((annotate g e, e.prov))] := by
        simp [annotate_depth]
      rw [hempty, hsingle]
      simp [annotate_id]
  · intro d'
    rw [pushDepth_keys]
    by_cases hd : e.depth ∈ bd.map Prod.fst
    · rw [if_pos hd]
      constructor
      · intro h
        rcases (inv.bd_keys_cover d').mp h with ⟨a, ha, hdep⟩
        exact ⟨a, List.mem_append_left _ ha, hdep⟩
      · rintro ⟨a, ha, hdep⟩
        rcases List.mem_append.mp ha with ha | ha
        · exact (inv.bd_keys_cover d').mpr ⟨a, ha, hdep⟩
        · rcases List.mem_singleton.mp ha with rfl
          rw [← hdep, annotate_depth]
          exact hd
    · rw [if_neg hd]
      constructor
      · intro h
        rcases List.mem_append.mp h with h | h
        · rcases (inv.bd_keys_cover d').mp h with ⟨a, ha, hdep⟩
          exact ⟨a, List.mem_append_left _ ha, hdep⟩
        · rcases List.mem_singleton.mp h with rfl
          exact ⟨(annotate g e, e.prov), hnnmem, annotate_depth g e⟩
      · rintro ⟨a, ha, hdep⟩
        rcases List.mem_append.mp ha with ha | ha
        · exact List.mem_append_left _ ((inv.bd_keys_cover d').mpr ⟨a, ha, hdep⟩)
        · rcases List.mem_singleton.mp ha with rfl
          apply List.mem_append_right
          rw [← hdep, annotate_depth]
          exact List.mem_singleton_self _

theorem bfsTraverse_post (g : List PNode) (visited : List String)
    (out : List (PNode × Prov)) (bd : List (Nat × List String)) (queue : List QEntry)
    (inv : TravInv g visited out bd queue) :
    TravPost (bfsTraverse g visited out bd queue) := by
  induction visited, out, bd, queue using bfsTraverse.induct g with
  | case1 visited out bd =>
    rw [bfsTraverse]
    exact travPost_of_inv g visited out bd inv
  | case2 visited out bd e rest hv ih =>
    rw [bfsTraverse]
    simp only [dif_pos hv]
    refine ih ⟨inv.visited_iff, inv.ids_nodup, inv.entry_parent, inv.entry_prov, ?_,
      inv.bd_keys_nodup, inv.bd_buckets, inv.bd_keys_cover⟩
    intro e' he'
    exact inv.queue_prov e' (List.mem_cons_of_mem _ he')
  | case3 visited out bd e rest hv hf ih =>
    rw [bfsTraverse]
    simp only [dif_neg hv]
    split
    · exact ih (travInv_step g visited out bd e rest inv hv)
    · rename_i n heq
      rw [hf] at heq
      cases heq
  | case4 visited out bd e rest hv n hf ih =>
    rw [bfsTraverse]
    simp only [dif_neg hv]
    split
    · rename_i heq
      rw [hf] at heq
      cases heq
    · rename_i n' heq
      rw [hf] at heq
      injection heq with hn
      subst hn
      have base := travInv_step g visited out bd e rest inv hv
      refine ih ⟨base.visited_iff, base.ids_nodup, base.entry_parent, base.entry_prov, ?_,
        base.bd_keys_nodup, base.bd_buckets, base.bd_keys_cover⟩
      intro e' he'
      rcases List.mem_append.mp he' with h1 | h2
      · rcases List.mem_append.mp h1 with h1a | h1b
        · exact base.queue_prov e' h1a
        · exact enqueue_prov g out e n hf (e.node :: visited) e'
            (List.mem_append_left _ h1b)
      · exact enqueue_prov g out e n hf (e.node :: visited) e'
          (List.mem_append_right _ h2)

/-- C1: in every tree produced by the snapshot traversal, every node is
assigned exactly one depth — it occurs exactly once in the flat node list
(the id list is duplicate-free) and, for every bucket of `nodesByDepth`
(whose keys are duplicate-free), it occurs exactly once in the bucket of its
own depth and zero times elsewhere; `depth(child) = depth(parent) + 1` for
every parent back-reference recorded by the traversal; and every node first
reached through a partner edge (ghost provenance `partnerOf`) has the same
depth as the node that listed it as partner. -/
theorem traverseAndAnnotateTree_depth_unique (g : List PNode) (root : String) :
    (((traverseAndAnnotateTree g root).nodes.map fun a => a.1.id).Nodup) ∧
    (((traverseAndAnnotateTree g root).nodesByDepth.map Prod.fst).Nodup) ∧
    (∀ a ∈ (traverseAndAnnotateTree g root).nodes,
      a.1.depth ∈ (traverseAndAnnotateTree g root).nodesByDepth.map Prod.fst) ∧
    (∀ a ∈ (traverseAndAnnotateTree g root).nodes,
      ∀ p ∈ (traverseAndAnnotateTree g root).nodesByDepth,
        p.2.count a.1.id = if p.1 = a.1.depth then 1 else 0) ∧
    (∀ a ∈ (traverseAndAnnotateTree g root).nodes, ∀ pid, a.1.parent = some pid →
      ∃ b ∈ (traverseAndAnnotateTree g root).nodes,
        b.1.id = pid ∧ a.1.depth = b.1.depth + 1) ∧
    (∀ a ∈ (traverseAndAnnotateTree g root).nodes, ∀ q, a.2 = Prov.partnerOf q →
      ∃ b ∈ (traverseAndAnnotateTree g root).nodes,
        b.1.id = q ∧ a.1.depth = b.1.depth) := by
  have hpost : TravPost (traverseAndAnnotateTree g root) := by
    apply bfsTraverse_post
    refine ⟨?_, ?_, ?_, ?_, ?_, ?_, ?_, ?_⟩
    · intro i; simp
    · simp
    · intro a ha; cases ha
    · intro a ha; cases ha
    · intro e he
      rcases List.mem_singleton.mp he with rfl
      rfl
    · simp
    · intro p hp; cases hp
    · intro d; simp
  exact hpost

/-! ## Link Synthesis — `calculateLinks` (Tree.vue, lines 62–197)

`getOptimalConnectionPoints` compares Euclidean distances; the model compares
SQUARED distances (`Math.sqrt` is strictly monotone on non-negative reals, so
every comparison `distance < minDistance` has the same outcome), which keeps
the definition executable over `ℚ`.  The `minDistance = Infinity` initial
value is modelled as `none`: the first candidate pair always wins against it,
exactly as any finite distance beats `Infinity`. -/

/-- The four anchor candidates of a node box: top-mid, bottom-mid, left-mid,
right-mid, in source iteration order. -/
def anchorPoints (W H : ℚ) (n : PNode) : List (ℚ × ℚ) :=
  [(n.x + W / 2, n.y), (n.x + W / 2, n.y + H), (n.x, n.y + H / 2), (n.x + W, n.y + H / 2)]

/-- Squared Euclidean distance. -/
def dist2 (p q : ℚ × ℚ) : ℚ := (p.1 - q.1) ^ 2 + (p.2 - q.2) ^ 2

/-- All 4×4 anchor pairs in the source's nested loop order (`pA` outer,
`pB` inner). -/
def allAnchorPairs (W H : ℚ) (a b : PNode) : List ((ℚ × ℚ) × (ℚ × ℚ)) :=
  ((anchorPoints W H a).map fun pA => (anchorPoints W H b).map fun pB => (pA, pB)).flatten

/-- `getOptimalConnectionPoints(nodeA, nodeB)`: first strict minimum over the
4×4 anchor pairs, starting from `(A.top, B.top)` with `minDistance =`
`Infinity` (`none`). -/
def getOptimalConnectionPoints (W H : ℚ) (a b : PNode) : (ℚ × ℚ) × (ℚ × ℚ) :=
  (((allAnchorPairs W H a b).foldl
      (fun (st : Option ℚ × ((ℚ × ℚ) × (ℚ × ℚ))) pr =>
        let d := dist2 pr.1 pr.2
        match st.1 with
        | none => (some d, pr)
        | some m => if d < m then (some d, pr) else st)
      (none, ((a.x + W / 2, a.y), (b.x + W / 2, b.y))))).2

/-- Step 1 of `calculateLinks`: for each node, one partner link per listed
partner with `node.id < partner.id` (the partner object reference is resolved
through the registry; in the source it is the object itself). -/
def partnerLinksFor (W H : ℚ) (nodes : List PNode) (node : PNode) : List TreeLink :=
  node.partners.filterMap fun pid =>
    match resolveNode nodes pid with
    | none => none
    | some partner =>
      if node.id < pid then
        let cp := getOptimalConnectionPoints W H node partner
        some { id := "p_" ++ node.id ++ "_" ++ pid,
               x1 := cp.1.1, y1 := cp.1.2, x2 := cp.2.1, y2 := cp.2.2 }
      else none

def partnerLinks (W H : ℚ) (nodes : List PNode) : List TreeLink :=
  (nodes.map (partnerLinksFor W H nodes)).flatten

/-- JavaScript `familyId.split('_')`, written out over the character list
(split at every underscore; no limit; keeps empty segments), so that its
algebra is provable. -/
def splitOnUnderscoreAux : List Char → List Char → List (List Char)
  | [], cur => [cur.reverse]
  | c :: rest, cur =>
    if c = '_' then cur.reverse :: splitOnUnderscoreAux rest []
    else splitOnUnderscoreAux rest (c :: cur)

def splitUnderscore (s : String) : List String :=
  (splitOnUnderscoreAux s.data []).map fun l => ⟨l⟩

/-- Lexicographic order on character lists by code point, modelling the
comparison JavaScript's default `sort()` applies to strings (UTF-16 code
units; identical to code points on the basic multilingual plane). -/
def strLtChars : List Char → List Char → Bool
  | [], [] => false
  | [], _ :: _ => true
  | _ :: _, [] => false
  | a :: as, b :: bs =>
    if a.toNat < b.toNat then true
    else if b.toNat < a.toNat then false
    else strLtChars as bs

/-- `[p1, p2].sort().join('_')` for the family key (JavaScript default sort is
lexicographic on strings). -/
def sortedJoin (p1 p2 : String) : String :=
  if strLtChars p2.data p1.data then p2 ++ "_" ++ p1 else p1 ++ "_" ++ p2

/-- Insertion-ordered `Map` push for the `families` map (step 2 of
`calculateLinks`). -/
def pushFam (fams : List (String × List PNode)) (key : String) (node : PNode) :
    List (String × List PNode) :=
  match fams with
  | [] => [(key, [node])]
  | (k, l) :: rest =>
    if k = key then (k, l ++ [node]) :: rest else (k, l) :: pushFam rest key node

/-- Step 2 of `calculateLinks`: group the nodes whose `parent.children`
actually contains them by family key — the sole parent id, or
`sortedJoin(parentId, coParentId)` when `coParentId` is truthy (a non-empty
string; the source does not resolve it here). -/
def famStep (nodes : List PNode) (fams : List (String × List PNode)) (node : PNode) :
    List (String × List PNode) :=
  match node.parent with
  | none => fams
  | some p1 =>
    match resolveNode nodes p1 with
    | none => fams
    | some pn =>
      if node.id ∈ pn.children then
        pushFam fams
          (match node.coParentId with
           | none => p1
           | some p2 => if p2 = "" then p1 else sortedJoin p1 p2) node
      else fams

def buildFamilies (nodes : List PNode) : List (String × List PNode) :=
  nodes.foldl (famStep nodes) []

/-- The three-part "bus" of a multi-child family: vertical trunk from the
parent mid-point down `Y_SPACING_BUS = 100`, horizontal trunk from
`min(parentMidX, minChildX)` to `max(parentMidX, maxChildX)` at that offset,
and one arrowed drop per child ending at the child's top-mid.  `sorted` is
the family's children sorted ascending by `x`; it is non-empty at every call
site (family buckets are never empty), so the `getD` defaults are
unreachable. -/
def busLinksFor (W : ℚ) (familyId : String) (parentMidX parentMidY : ℚ)
    (sorted : List PNode) : List TreeLink :=
  let busY := parentMidY + 100
  let minChildX := ((sorted.head?).map fun c => c.x + W / 2).getD parentMidX
  let maxChildX := ((sorted.getLast?).map fun c => c.x + W / 2).getD parentMidX
  [⟨"bus_v_main_" ++ familyId, parentMidX, parentMidY, parentMidX, busY, false⟩,
   ⟨"bus_h_" ++ familyId, min parentMidX minChildX, busY, max parentMidX maxChildX, busY,
     false⟩] ++
    sorted.map fun c => ⟨"bus_v_child_" ++ c.id, c.x + W / 2, busY, c.x + W / 2, c.y, true⟩

/-- The partner link the two-parent branch creates when the lookup in the
accumulated links fails (its id is the already-computed `partnerLinkId`). -/
def newPartnerLink (W H : ℚ) (paid pbid : String) (a b : PNode) : TreeLink :=
  let cp := getOptimalConnectionPoints W H a b
  { id := "p_" ++ paid ++ "_" ++ pbid, x1 := cp.1.1, y1 := cp.1.2, x2 := cp.2.1, y2 := cp.2.2 }

/-- The links one iteration of the family loop (step 3 of `calculateLinks`)
appends to the accumulated link list `acc` (the source pushes into the shared
`newLinks` array; `acc` is read only by the partner-link lookup of the
two-parent branch). -/
def famEmitted (W H : ℚ) (nodes : List PNode) (acc : List TreeLink)
    (fam : String × List PNode) : List TreeLink :=
  if fam.1 = "super-root" then []
  else
    match splitUnderscore fam.1 with
    | [p1id] =>
      match resolveNode nodes p1id with
      | some parent1 =>
        match fam.2 with
        | [child] =>
          [{ id := "pc_" ++ parent1.id ++ "_" ++ child.id,
             x1 := parent1.x + W / 2, y1 := parent1.y + H,
             x2 := child.x + W / 2, y2 := child.y, hasArrow := true }]
        | _ =>
          busLinksFor W fam.1 (parent1.x + W / 2) (parent1.y + H)
            (fam.2.mergeSort fun a b => a.x ≤ b.x)
      | none => []
    | [paid, pbid] =>
      match resolveNode nodes paid, resolveNode nodes pbid with
      | some parent1, some parent2 =>
        let partnerLinkId := "p_" ++ paid ++ "_" ++ pbid
        let found := acc.find? fun l => l.id = partnerLinkId
        let pl : TreeLink :=
          match found with
          | some l => l
          | none => newPartnerLink W H paid pbid parent1 parent2
        let pushedPartner : List TreeLink :=
          match found with
          | some _ => []
          | none => [pl]
        let parentMidX := (pl.x1 + pl.x2) / 2
        let parentMidY := (pl.y1 + pl.y2) / 2
        pushedPartner ++
          (match fam.2 with
           | [child] =>
             [{ id := "fam_" ++ fam.1 ++ "-" ++ child.id,
                x1 := parentMidX, y1 := parentMidY,
                x2 := child.x + W / 2, y2 := child.y, hasArrow := true }]
           | _ =>
             busLinksFor W fam.1 parentMidX parentMidY
               (fam.2.mergeSort fun a b => a.x ≤ b.x))
      | _, _ => []
    | _ => []

/-- One iteration of the family loop: append what it emits. -/
def processFamily (W H : ℚ) (nodes : List PNode) (acc : List TreeLink)
    (fam : String × List PNode) : List TreeLink :=
  acc ++ famEmitted W H nodes acc fam

/-- `calculateLinks(nodes)` (`W`, `H` are the `nodeWidth` / `nodeHeight`
options the component closed over): partner links first, then the family
loop. -/
def calculateLinks (W H : ℚ) (nodes : List PNode) : List TreeLink :=
  (buildFamilies nodes).foldl (processFamily W H nodes) (partnerLinks W H nodes)

/-! ### String algebra for link ids -/

theorem string_data_inj {s t : String} (h : s.data = t.data) : s = t := by
  cases s; cases t; exact congrArg String.mk h

theorem splitOnUnderscoreAux_cons_sep (rest cur : List Char) :
    splitOnUnderscoreAux ('_' :: rest) cur = cur.reverse :: splitOnUnderscoreAux rest [] := by
  simp [splitOnUnderscoreAux]

theorem splitOnUnderscoreAux_cons_other {c : Char} (hc : ¬ c = '_') (rest cur : List Char) :
    splitOnUnderscoreAux (c :: rest) cur = splitOnUnderscoreAux rest (c :: cur) := by
  simp [splitOnUnderscoreAux, hc]

theorem splitOnUnderscoreAux_ne_nil : ∀ (l cur : List Char), splitOnUnderscoreAux l cur ≠ [] := by
  intro l
  induction l with
  | nil => intro cur; simp [splitOnUnderscoreAux]
  | cons c rest ih =>
    intro cur
    by_cases hc : c = '_'
    · subst hc
      rw [splitOnUnderscoreAux_cons_sep]
      simp
    · rw [splitOnUnderscoreAux_cons_other hc]
      exact ih (c :: cur)

theorem splitOnUnderscoreAux_no_sep : ∀ (l cur : List Char), ¬ '_' ∈ l →
    splitOnUnderscoreAux l cur = [cur.reverse ++ l] := by
  intro l
  induction l with
  | nil => intro cur _; simp [splitOnUnderscoreAux]
  | cons c rest ih =>
    intro cur hl
    have hc : ¬ (c = '_') := fun h => hl (h ▸ List.mem_cons_self _ _)
    have hrest : ¬ '_' ∈ rest := fun h => hl (List.mem_cons_of_mem _ h)
    rw [splitOnUnderscoreAux_cons_other hc, ih (c :: cur) hrest]
    simp

theorem splitOnUnderscoreAux_sep : ∀ (a cur b : List Char), ¬ '_' ∈ a →
    splitOnUnderscoreAux (a ++ '_' :: b) cur =
      (cur.reverse ++ a) :: splitOnUnderscoreAux b [] := by
  intro a
  induction a with
  | nil =>
    intro cur b _
    rw [List.nil_append, splitOnUnderscoreAux_cons_sep]
    simp
  | cons c rest ih =>
    intro cur b ha
    have hc : ¬ (c = '_') := fun h => ha (h ▸ List.mem_cons_self _ _)
    have hrest : ¬ '_' ∈ rest := fun h => ha (List.mem_cons_of_mem _ h)
    rw [List.cons_append, splitOnUnderscoreAux_cons_other hc, ih (c :: cur) b hrest]
    simp

theorem splitOnUnderscoreAux_length_one : ∀ (l cur : List Char),
    (splitOnUnderscoreAux l cur).length = 1 →
      splitOnUnderscoreAux l cur = [cur.reverse ++ l] ∧ ¬ '_' ∈ l := by
  intro l
  induction l with
  | nil => intro cur _; exact ⟨by simp [splitOnUnderscoreAux], by simp⟩
  | cons c rest ih =>
    intro cur h
    by_cases hc : c = '_'
    · subst hc
      rw [splitOnUnderscoreAux_cons_sep] at h
      simp only [List.length_cons] at h
      have hne := splitOnUnderscoreAux_ne_nil rest []
      have hzero : (splitOnUnderscoreAux rest []).length = 0 := by omega
      exact absurd (List.length_eq_zero.mp hzero) hne
    · rw [splitOnUnderscoreAux_cons_other hc] at h ⊢
      have := ih (c :: cur) h
      refine ⟨?_, ?_⟩
      · rw [this.1]; simp
      · intro hmem
        rcases List.mem_cons.mp hmem with h' | h'
        · exact hc h'.symm
        · exact this.2 h'

theorem splitOnUnderscoreAux_length_two : ∀ (l cur : List Char),
    (splitOnUnderscoreAux l cur).length = 2 →
      ∃ p q, l = p ++ '_' :: q ∧ ¬ '_' ∈ p ∧ ¬ '_' ∈ q ∧
        splitOnUnderscoreAux l cur = [cur.reverse ++ p, q] := by
  intro l
  induction l with
  | nil =>
    intro cur h
    simp [splitOnUnderscoreAux] at h
  | cons c rest ih =>
    intro cur h
    by_cases hc : c = '_'
    · subst hc
      rw [splitOnUnderscoreAux_cons_sep] at h
      simp only [List.length_cons] at h
      have h1 : (splitOnUnderscoreAux rest []).length = 1 := by omega
      have hres := splitOnUnderscoreAux_length_one rest [] h1
      refine ⟨[], rest, by simp, by simp, hres.2, ?_⟩
      rw [splitOnUnderscoreAux_cons_sep, hres.1]
      simp
    · rw [splitOnUnderscoreAux_cons_other hc] at h ⊢
      rcases ih (c :: cur) h with ⟨p, q, hl, hp, hq, heq⟩
      refine ⟨c :: p, q, by simp [hl], ?_, hq, ?_⟩
      · intro hmem
        rcases List.mem_cons.mp hmem with h' | h'
        · exact hc h'.symm
        · exact hp h'
      · rw [heq]
        simp

theorem splitUnderscore_length_one (s a : String) (h : splitUnderscore s = [a]) :
    s = a ∧ ¬ '_' ∈ a.data := by
  unfold splitUnderscore at h
  have hlen : (splitOnUnderscoreAux s.data []).length = 1 := by
    have := congrArg List.length h
    simpa using this
  have hres := splitOnUnderscoreAux_length_one s.data [] hlen
  rw [hres.1] at h
  simp only [List.map_cons, List.map_nil, List.reverse_nil, List.nil_append,
    List.cons.injEq, and_true] at h
  constructor
  · exact h
  · rw [← h]
    exact hres.2

theorem splitUnderscore_length_two (s a b : String) (h : splitUnderscore s = [a, b]) :
    s = a ++ "_" ++ b ∧ ¬ '_' ∈ a.data ∧ ¬ '_' ∈ b.data := by
  unfold splitUnderscore at h
  have hlen : (splitOnUnderscoreAux s.data []).length = 2 := by
    have := congrArg List.length h
    simpa using this
  rcases splitOnUnderscoreAux_length_two s.data [] hlen with ⟨p, q, hl, hp, hq, heq⟩
  rw [heq] at h
  simp only [List.map_cons, List.map_nil, List.reverse_nil, List.nil_append,
    List.cons.injEq, and_true] at h
  have hadata : a.data = p := by rw [← h.1]
  have hbdata : b.data = q := by rw [← h.2]
  refine ⟨?_, ?_, ?_⟩
  · apply string_data_inj
    rw [hl, String.data_append, String.data_append, hadata, hbdata]
    simp
  · rw [hadata]; exact hp
  · rw [hbdata]; exact hq

theorem underscore_list_inj : ∀ (a : List Char) (b c d : List Char), ¬ '_' ∈ a → ¬ '_' ∈ c →
    a ++ '_' :: b = c ++ '_' :: d → a = c ∧ b = d := by
  intro a
  induction a with
  | nil =>
    intro b c d _ hc h
    cases c with
    | nil => simpa using h
    | cons x xs =>
      simp only [List.nil_append, List.cons_append, List.cons.injEq] at h
      exact absurd (h.1 ▸ List.mem_cons_self _ _) hc
  | cons x xs ih =>
    intro b c d ha hc h
    cases c with
    | nil =>
      simp only [List.nil_append, List.cons_append, List.cons.injEq] at h
      exact absurd (h.1.symm ▸ List.mem_cons_self _ _) ha
    | cons y ys =>
      simp only [List.cons_append, List.cons.injEq] at h
      have hxs : ¬ '_' ∈ xs := fun hm => ha (List.mem_cons_of_mem _ hm)
      have hys : ¬ '_' ∈ ys := fun hm => hc (List.mem_cons_of_mem _ hm)
      rcases ih b ys d hxs hys h.2 with ⟨h1, h2⟩
      exact ⟨by rw [h.1, h1], h2⟩

theorem string_underscore_inj (a b c d : String) (ha : ¬ '_' ∈ a.data) (hc : ¬ '_' ∈ c.data)
    (h : a ++ "_" ++ b = c ++ "_" ++ d) : a = c ∧ b = d := by
  have hd : a.data ++ '_' :: b.data = c.data ++ '_' :: d.data := by
    have := congrArg String.data h
    simpa [String.data_append] using this
  rcases underscore_list_inj a.data b.data c.data d.data ha hc hd with ⟨h1, h2⟩
  exact ⟨string_data_inj h1, string_data_inj h2⟩

theorem string_append_left_inj (p a b : String) (h : p ++ a = p ++ b) : a = b := by
  have hd : p.data ++ a.data = p.data ++ b.data := by
    have := congrArg String.data h
    simpa [String.data_append] using this
  exact string_data_inj (List.append_cancel_left hd)

theorem string_append_ne_of_no_pre (p1 p2 : String)
    (h1 : ¬ p1.data <+: p2.data) (h2 : ¬ p2.data <+: p1.data) (a b : String) :
    p1 ++ a ≠ p2 ++ b := by
  intro he
  have hd : p1.data ++ a.data = p2.data ++ b.data := by
    have := congrArg String.data he
    simpa [String.data_append] using this
  have hp1 : p1.data <+: (p2.data ++ b.data) := hd ▸ List.prefix_append _ _
  rcases List.prefix_or_prefix_of_prefix hp1 (List.prefix_append _ _) with h | h
  · exact h1 h
  · exact h2 h

/-! ### `buildFamilies` bucket structure -/

theorem famStep_cases (nodes : List PNode) (fams : List (String × List PNode)) (node : PNode) :
    famStep nodes fams node = fams ∨ ∃ k, famStep nodes fams node = pushFam fams k node := by
  unfold famStep
  cases hp : node.parent with
  | none => exact Or.inl rfl
  | some p1 =>
    dsimp only
    cases hr : resolveNode nodes p1 with
    | none => simp
    | some pn =>
      dsimp only
      by_cases hmem : node.id ∈ pn.children
      · simp only [if_pos hmem]
        exact Or.inr ⟨_, rfl⟩
      · simp only [if_neg hmem]
        simp

theorem pushFam_keys (key : String) (n : PNode) :
    ∀ fams : List (String × List PNode),
      (pushFam fams key n).map Prod.fst =
        if key ∈ fams.map Prod.fst then fams.map Prod.fst
        else fams.map Prod.fst ++ [key] := by
  intro fams
  induction fams with
  | nil => simp [pushFam]
  | cons p rest ih =>
    obtain ⟨k, l⟩ := p
    by_cases hk : k = key
    · subst hk
      simp [pushFam]
    · simp only [pushFam, if_neg hk, List.map_cons]
      rw [ih]
      have hkd : ¬ (key = k) := fun h => hk h.symm
      by_cases hd : key ∈ rest.map Prod.fst <;>
        simp [hd, List.mem_cons, hkd]

theorem pushFam_keys_nodup (key : String) (n : PNode) (fams : List (String × List PNode))
    (h : (fams.map Prod.fst).Nodup) : ((pushFam fams key n).map Prod.fst).Nodup := by
  rw [pushFam_keys]
  by_cases hd : key ∈ fams.map Prod.fst
  · rw [if_pos hd]; exact h
  · rw [if_neg hd]
    refine List.Nodup.append h (by simp) ?_
    intro x hx hx2
    rcases List.mem_singleton.mp hx2 with rfl
    exact hd hx

theorem buildFamilies_keys_nodup (nodes : List PNode) :
    ((buildFamilies nodes).map Prod.fst).Nodup := by
  unfold buildFamilies
  have : ∀ (l : List PNode) (fams : List (String × List PNode)),
      (fams.map Prod.fst).Nodup → ((l.foldl (famStep nodes) fams).map Prod.fst).Nodup := by
    intro l
    induction l with
    | nil => intro fams h; exact h
    | cons n rest ih =>
      intro fams h
      simp only [List.foldl_cons]
      rcases famStep_cases nodes fams n with heq | ⟨k, heq⟩
      · rw [heq]; exact ih fams h
      · rw [heq]; exact ih _ (pushFam_keys_nodup k n fams h)
  exact this nodes [] (by simp)

theorem pushFam_sum_countP (p : PNode → Bool) (key : String) (n : PNode) :
    ∀ fams : List (String × List PNode),
      ((pushFam fams key n).map fun fam => fam.2.countP p).sum =
        ((fams.map fun fam => fam.2.countP p).sum) + (if p n then 1 else 0) := by
  intro fams
  induction fams with
  | nil => simp [pushFam, List.countP_cons]
  | cons q rest ih =>
    obtain ⟨k, l⟩ := q
    by_cases hk : k = key
    · subst hk
      simp only [pushFam, if_pos rfl, List.map_cons, List.sum_cons, List.countP_append]
      simp [List.countP_cons]
      omega
    · simp only [pushFam, if_neg hk, List.map_cons, List.sum_cons]
      rw [ih]
      omega

theorem buildFamilies_sum_le (nodes : List PNode) (p : PNode → Bool) :
    (((buildFamilies nodes).map fun fam => fam.2.countP p).sum) ≤ nodes.countP p := by
  unfold buildFamilies
  have : ∀ (l : List PNode) (fams : List (String × List PNode)),
      (((l.foldl (famStep nodes) fams).map fun fam => fam.2.countP p).sum) ≤
        ((fams.map fun fam => fam.2.countP p).sum) + l.countP p := by
    intro l
    induction l with
    | nil => intro fams; simp
    | cons n rest ih =>
      intro fams
      simp only [List.foldl_cons, List.countP_cons]
      rcases famStep_cases nodes fams n with heq | ⟨k, heq⟩
      · rw [heq]
        have := ih fams
        by_cases hp : p n <;> simp [hp] <;> omega
      · rw [heq]
        have := ih (pushFam fams k n)
        rw [pushFam_sum_countP p k n fams] at this
        by_cases hp : p n <;> simp [hp] at this ⊢ <;> omega
  have h := this nodes []
  simpa using h

theorem countP_map_eq_le_one {α β : Type} [DecidableEq β] (f : α → β) (l : List α)
    (h : (l.map f).Nodup) (b : β) : l.countP (fun x => f x = b) ≤ 1 := by
  induction l with
  | nil => simp
  | cons a rest ih =>
    rw [List.map_cons, List.nodup_cons] at h
    rw [List.countP_cons]
    by_cases hb : f a = b
    · have hzero : rest.countP (fun x => f x = b) = 0 := by
        rw [List.countP_eq_zero]
        intro x hx
        simp only [decide_eq_true_eq]
        intro hxb
        exact h.1 (hb ▸ hxb ▸ List.mem_map_of_mem f hx)
      simp [hb, hzero]
    · have := ih h.2
      simp [hb]
      omega

theorem buildFamilies_child_count (nodes : List PNode)
    (hids : (nodes.map PNode.id).Nodup) (fam : String × List PNode)
    (hmem : fam ∈ buildFamilies nodes) (c : PNode) (hc : c ∈ fam.2) :
    fam.2.countP (fun n => n.id = c.id) = 1 ∧
      ∀ fam' ∈ buildFamilies nodes, fam'.1 ≠ fam.1 →
        ∀ c' ∈ fam'.2, ¬ (c'.id = c.id) := by
  set p : PNode → Bool := fun n => decide (n.id = c.id) with hp
  set g : (String × List PNode) → Nat := fun fam => fam.2.countP p with hg
  have hsum : ((buildFamilies nodes).map g).sum ≤ 1 :=
    le_trans (buildFamilies_sum_le nodes p) (countP_map_eq_le_one PNode.id nodes hids c.id)
  have hone : 1 ≤ g fam := by
    rw [hg]
    simp only
    rw [Nat.succ_le_iff, List.countP_pos_iff]
    exact ⟨c, hc, by simp [hp]⟩
  have hfam_le : g fam ≤ ((buildFamilies nodes).map g).sum :=
    List.single_le_sum (by intro x _; exact Nat.zero_le x) _ (List.mem_map_of_mem g hmem)
  have hgfam : g fam = 1 := le_antisymm (le_trans hfam_le hsum) hone
  refine ⟨hgfam, ?_⟩
  intro fam' hmem' hne c' hc' hcid
  have hfamne : fam' ≠ fam := fun h => hne (h ▸ rfl)
  rcases List.append_of_mem hmem with ⟨s, t, hst⟩
  have hsum2 : ((buildFamilies nodes).map g).sum =
      (s.map g).sum + g fam + (t.map g).sum := by
    rw [hst]
    simp [List.sum_append]
    omega
  have hmem'' : fam' ∈ s ++ t := by
    rw [hst] at hmem'
    rcases List.mem_append.mp hmem' with h | h
    · exact List.mem_append_left _ h
    · rcases List.mem_cons.mp h with h | h
      · exact absurd h hfamne
      · exact List.mem_append_right _ h
  have hfam'_le : g fam' ≤ (s.map g).sum + (t.map g).sum := by
    have := List.single_le_sum (fun x hx => Nat.zero_le x) (g fam')
      (List.mem_map_of_mem g hmem'')
    simpa [List.sum_append] using this
  have hzero : g fam' = 0 := by omega
  rw [hg] at hzero
  simp only [List.countP_eq_zero] at hzero
  exact hzero c' hc' (by simp [hp, hcid])

/-! ### Shape and count lemmas for emitted family links -/

theorem busLinksFor_shapes (W : ℚ) (fid : String) (pmx pmy : ℚ) (sorted : List PNode) :
    ∀ l ∈ busLinksFor W fid pmx pmy sorted,
      l.id = "bus_v_main_" ++ fid ∨ l.id = "bus_h_" ++ fid ∨
        ∃ c ∈ sorted, l.id = "bus_v_child_" ++ c.id := by
  intro l hl
  unfold busLinksFor at hl
  simp only [List.cons_append, List.nil_append, List.mem_cons, List.mem_map] at hl
  rcases hl with rfl | rfl | ⟨c, hc, rfl⟩
  · exact Or.inl rfl
  · exact Or.inr (Or.inl rfl)
  · exact Or.inr (Or.inr ⟨c, hc, rfl⟩)

theorem busLinksFor_countP_vmain (W : ℚ) (fid : String) (pmx pmy : ℚ) (sorted : List PNode) :
    (busLinksFor W fid pmx pmy sorted).countP (fun l => l.id = "bus_v_main_" ++ fid) = 1 := by
  unfold busLinksFor
  simp only [List.cons_append, List.nil_append, List.countP_cons, List.countP_map]
  have h1 : ¬ ("bus_h_" ++ fid = "bus_v_main_" ++ fid) :=
    string_append_ne_of_no_pre "bus_h_" "bus_v_main_" (by decide) (by decide) fid fid
  have h2 : sorted.countP
      ((fun l : TreeLink => decide (l.id = "bus_v_main_" ++ fid)) ∘
        (fun c => (⟨"bus_v_child_" ++ c.id, c.x + W / 2, pmy + 100, c.x + W / 2, c.y,
          true⟩ : TreeLink))) = 0 := by
    rw [List.countP_eq_zero]
    intro c _
    simp only [Function.comp_apply, decide_eq_true_eq]
    exact string_append_ne_of_no_pre "bus_v_child_" "bus_v_main_" (by decide) (by decide) c.id fid
  rw [h2]
  simp [h1]

theorem busLinksFor_countP_hbus (W : ℚ) (fid : String) (pmx pmy : ℚ) (sorted : List PNode) :
    (busLinksFor W fid pmx pmy sorted).countP (fun l => l.id = "bus_h_" ++ fid) = 1 := by
  unfold busLinksFor
  simp only [List.cons_append, List.nil_append, List.countP_cons, List.countP_map]
  have h1 : ¬ ("bus_v_main_" ++ fid = "bus_h_" ++ fid) :=
    string_append_ne_of_no_pre "bus_v_main_" "bus_h_" (by decide) (by decide) fid fid
  have h2 : sorted.countP
      ((fun l : TreeLink => decide (l.id = "bus_h_" ++ fid)) ∘
        (fun c => (⟨"bus_v_child_" ++ c.id, c.x + W / 2, pmy + 100, c.x + W / 2, c.y,
          true⟩ : TreeLink))) = 0 := by
    rw [List.countP_eq_zero]
    intro c _
    simp only [Function.comp_apply, decide_eq_true_eq]
    exact string_append_ne_of_no_pre "bus_v_child_" "bus_h_" (by decide) (by decide) c.id fid
  rw [h2]
  simp [h1]

theorem busLinksFor_countP_drop (W : ℚ) (fid : String) (pmx pmy : ℚ) (sorted : List PNode)
    (cid : String) :
    (busLinksFor W fid pmx pmy sorted).countP (fun l => l.id = "bus_v_child_" ++ cid) =
      sorted.countP (fun c => c.id = cid) := by
  unfold busLinksFor
  simp only [List.cons_append, List.nil_append, List.countP_cons, List.countP_map]
  have h1 : ¬ ("bus_v_main_" ++ fid = "bus_v_child_" ++ cid) :=
    string_append_ne_of_no_pre "bus_v_main_" "bus_v_child_" (by decide) (by decide) fid cid
  have h2 : ¬ ("bus_h_" ++ fid = "bus_v_child_" ++ cid) :=
    string_append_ne_of_no_pre "bus_h_" "bus_v_child_" (by decide) (by decide) fid cid
  have h3 : (sorted.countP
      ((fun l : TreeLink => decide (l.id = "bus_v_child_" ++ cid)) ∘
        (fun c => (⟨"bus_v_child_" ++ c.id, c.x + W / 2, pmy + 100, c.x + W / 2, c.y,
          true⟩ : TreeLink)))) = sorted.countP (fun c => c.id = cid) := by
    apply List.countP_congr
    intro c _
    simp only [Function.comp_apply, decide_eq_true_eq]
    constructor
    · intro h
      exact string_append_left_inj "bus_v_child_" c.id cid h
    · intro h
      rw [h]
  rw [h3]
  simp [h1, h2]

theorem busLinksFor_mem_vmain (W : ℚ) (fid : String) (pmx pmy : ℚ) (sorted : List PNode) :
    (⟨"bus_v_main_" ++ fid, pmx, pmy, pmx, pmy + 100, false⟩ : TreeLink) ∈
      busLinksFor W fid pmx pmy sorted := by
  unfold busLinksFor
  simp

theorem busLinksFor_mem_hbus (W : ℚ) (fid : String) (pmx pmy : ℚ) (sorted : List PNode) :
    (⟨"bus_h_" ++ fid,
        min pmx (((sorted.head?).map fun c => c.x + W / 2).getD pmx), pmy + 100,
        max pmx (((sorted.getLast?).map fun c => c.x + W / 2).getD pmx), pmy + 100,
        false⟩ : TreeLink) ∈ busLinksFor W fid pmx pmy sorted := by
  unfold busLinksFor
  simp

theorem busLinksFor_mem_drop (W : ℚ) (fid : String) (pmx pmy : ℚ) (sorted : List PNode)
    (c : PNode) (hc : c ∈ sorted) :
    (⟨"bus_v_child_" ++ c.id, c.x + W / 2, pmy + 100, c.x + W / 2, c.y, true⟩ : TreeLink) ∈
      busLinksFor W fid pmx pmy sorted := by
  unfold busLinksFor
  simp only [List.cons_append, List.nil_append, List.mem_cons, List.mem_map]
  exact Or.inr (Or.inr ⟨c, hc, rfl⟩)

theorem famEmitted_single_bus (W H : ℚ) (nodes : List PNode) (acc : List TreeLink)
    (fid : String) (children : List PNode) (p1id : String) (parent1 : PNode)
    (hsr : ¬ fid = "super-root") (hsp : splitUnderscore fid = [p1id])
    (hres : resolveNode nodes p1id = some parent1) (hlen : 2 ≤ children.length) :
    famEmitted W H nodes acc (fid, children) =
      busLinksFor W fid (parent1.x + W / 2) (parent1.y + H)
        (children.mergeSort fun a b => a.x ≤ b.x) := by
  rcases children with _ | ⟨c1, _ | ⟨c2, cs⟩⟩
  · simp at hlen
  · simp at hlen
  · unfold famEmitted
    simp only [hsp, hres, if_neg hsr]

theorem famEmitted_two_found (W H : ℚ) (nodes : List PNode) (acc : List TreeLink)
    (fid : String) (children : List PNode) (paid pbid : String) (parent1 parent2 : PNode)
    (pl : TreeLink)
    (hsr : ¬ fid = "super-root") (hsp : splitUnderscore fid = [paid, pbid])
    (hra : resolveNode nodes paid = some parent1) (hrb : resolveNode nodes pbid = some parent2)
    (hfind : (acc.find? fun l => l.id = "p_" ++ paid ++ "_" ++ pbid) = some pl)
    (hlen : 2 ≤ children.length) :
    famEmitted W H nodes acc (fid, children) =
      busLinksFor W fid ((pl.x1 + pl.x2) / 2) ((pl.y1 + pl.y2) / 2)
        (children.mergeSort fun a b => a.x ≤ b.x) := by
  rcases children with _ | ⟨c1, _ | ⟨c2, cs⟩⟩
  · simp at hlen
  · simp at hlen
  · unfold famEmitted
    simp only [hsp, hra, hrb, if_neg hsr, hfind]
    simp

theorem famEmitted_two_not_found (W H : ℚ) (nodes : List PNode) (acc : List TreeLink)
    (fid : String) (children : List PNode) (paid pbid : String) (parent1 parent2 : PNode)
    (hsr : ¬ fid = "super-root") (hsp : splitUnderscore fid = [paid, pbid])
    (hra : resolveNode nodes paid = some parent1) (hrb : resolveNode nodes pbid = some parent2)
    (hfind : (acc.find? fun l => l.id = "p_" ++ paid ++ "_" ++ pbid) = none)
    (hlen : 2 ≤ children.length) :
    famEmitted W H nodes acc (fid, children) =
      newPartnerLink W H paid pbid parent1 parent2 ::
        busLinksFor W fid
          (((newPartnerLink W H paid pbid parent1 parent2).x1 +
            (newPartnerLink W H paid pbid parent1 parent2).x2) / 2)
          (((newPartnerLink W H paid pbid parent1 parent2).y1 +
            (newPartnerLink W H paid pbid parent1 parent2).y2) / 2)
          (children.mergeSort fun a b => a.x ≤ b.x) := by
  rcases children with _ | ⟨c1, _ | ⟨c2, cs⟩⟩
  · simp at hlen
  · simp at hlen
  · unfold famEmitted
    simp only [hsp, hra, hrb, if_neg hsr, hfind]
    simp

theorem famEmitted_shapes (W H : ℚ) (nodes : List PNode) (acc : List TreeLink)
    (fam : String × List PNode) :
    ∀ l ∈ famEmitted W H nodes acc fam,
      (∃ t, l.id = "pc_" ++ t) ∨ (l.id = "p_" ++ fam.1) ∨ (∃ t, l.id = "fam_" ++ t) ∨
        l.id = "bus_v_main_" ++ fam.1 ∨ l.id = "bus_h_" ++ fam.1 ∨
        (∃ c ∈ fam.2, l.id = "bus_v_child_" ++ c.id) := by
  intro l hl
  unfold famEmitted at hl
  by_cases hsr : fam.1 = "super-root"
  · rw [if_pos hsr] at hl; cases hl
  · rw [if_neg hsr] at hl
    have busCase : ∀ (pmx pmy : ℚ) (cs' : List PNode),
        l ∈ busLinksFor W fam.1 pmx pmy (cs'.mergeSort fun a b => a.x ≤ b.x) →
        (∃ t, l.id = "pc_" ++ t) ∨ (l.id = "p_" ++ fam.1) ∨ (∃ t, l.id = "fam_" ++ t) ∨
          l.id = "bus_v_main_" ++ fam.1 ∨ l.id = "bus_h_" ++ fam.1 ∨
          (∃ c ∈ cs', l.id = "bus_v_child_" ++ c.id) := by
      intro pmx pmy cs' hmem
      rcases busLinksFor_shapes _ _ _ _ _ l hmem with h | h | ⟨c, hc, h⟩
      · exact Or.inr (Or.inr (Or.inr (Or.inl h)))
      · exact Or.inr (Or.inr (Or.inr (Or.inr (Or.inl h))))
      · have hcmem : c ∈ cs' := ((List.mergeSort_perm _ _).mem_iff).mp hc
        exact Or.inr (Or.inr (Or.inr (Or.inr (Or.inr ⟨c, hcmem, h⟩))))
    rcases hspl : splitUnderscore fam.1 with _ | ⟨a, _ | ⟨b, _ | _⟩⟩
    · rw [hspl] at hl; cases hl
    · -- single-parent key
      simp only [hspl] at hl
      rcases hres : resolveNode nodes a with _ | parent1
      · simp only [hres] at hl
        cases hl
      · simp only [hres] at hl
        rcases hch : fam.2 with _ | ⟨c1, _ | ⟨c2, cs⟩⟩ <;> simp only [hch] at hl
        · exact busCase _ _ _ hl
        · rcases List.mem_singleton.mp hl with rfl
          refine Or.inl ⟨parent1.id ++ "_" ++ c1.id, ?_⟩
          simp [String.append_assoc]
        · exact busCase _ _ _ hl
    · -- two-parent key
      simp only [hspl] at hl
      have hfid : fam.1 = a ++ "_" ++ b := (splitUnderscore_length_two _ _ _ hspl).1
      have hplid : "p_" ++ a ++ "_" ++ b = "p_" ++ fam.1 := by
        rw [hfid]
        simp [String.append_assoc]
      rcases hra : resolveNode nodes a with _ | parent1
      · simp only [hra] at hl
        cases hl
      · rcases hrb : resolveNode nodes b with _ | parent2
        · simp only [hra, hrb] at hl
          cases hl
        · simp only [hra, hrb] at hl
          rcases hfind : (acc.find? fun l => l.id = "p_" ++ a ++ "_" ++ b) with _ | pl0 <;>
            simp only [hfind, List.nil_append, List.cons_append, List.mem_cons,
              List.singleton_append] at hl
          · -- not found: pushed partner link first
            rcases hl with rfl | hl
            · refine Or.inr (Or.inl ?_)
              rw [← hplid]
              rfl
            · rcases hch : fam.2 with _ | ⟨c1, _ | ⟨c2, cs⟩⟩ <;> simp only [hch] at hl
              · exact busCase _ _ _ hl
              · rcases List.mem_singleton.mp hl with rfl
                exact Or.inr (Or.inr (Or.inl ⟨fam.1 ++ "-" ++ c1.id, by
                  simp [String.append_assoc]⟩))
              · exact busCase _ _ _ hl
          · -- found
            rcases hch : fam.2 with _ | ⟨c1, _ | ⟨c2, cs⟩⟩ <;> simp only [hch] at hl
            · exact busCase _ _ _ hl
            · rcases List.mem_singleton.mp hl with rfl
              exact Or.inr (Or.inr (Or.inl ⟨fam.1 ++ "-" ++ c1.id, by
                simp [String.append_assoc]⟩))
            · exact busCase _ _ _ hl
    · -- three or more parts
      rw [hspl] at hl; cases hl

/-! ### Counting links through the family fold -/

theorem processFoldl_mem (W H : ℚ) (nodes : List PNode) :
    ∀ (fams : List (String × List PNode)) (acc : List TreeLink) (x : TreeLink),
      x ∈ acc → x ∈ fams.foldl (processFamily W H nodes) acc := by
  intro fams
  induction fams with
  | nil => intro acc x hx; exact hx
  | cons fam rest ih =>
    intro acc x hx
    simp only [List.foldl_cons]
    exact ih _ x (List.mem_append_left _ hx)

theorem processFoldl_countP_const (W H : ℚ) (nodes : List PNode) (p : TreeLink → Bool) :
    ∀ (fams : List (String × List PNode)) (acc : List TreeLink),
      (∀ (acc' : List TreeLink) (fam' : String × List PNode), fam' ∈ fams →
          (famEmitted W H nodes acc' fam').countP p = 0) →
      (fams.foldl (processFamily W H nodes) acc).countP p = acc.countP p := by
  intro fams
  induction fams with
  | nil => intro acc _; rfl
  | cons fam rest ih =>
    intro acc hz
    simp only [List.foldl_cons]
    rw [ih _ fun acc' fam' hf => hz acc' fam' (List.mem_cons_of_mem _ hf)]
    show (acc ++ famEmitted W H nodes acc fam).countP p = _
    rw [List.countP_append, hz acc fam (List.mem_cons_self _ _)]
    omega

theorem plink_id_inj (n1 p1 n2 p2 : String) (h1 : ¬ '_' ∈ n1.data) (h2 : ¬ '_' ∈ n2.data)
    (h : "p_" ++ n1 ++ "_" ++ p1 = "p_" ++ n2 ++ "_" ++ p2) : n1 = n2 ∧ p1 = p2 := by
  have hd := congrArg String.data h
  simp only [String.data_append, List.append_assoc] at hd
  have hd2 : n1.data ++ '_' :: p1.data = n2.data ++ '_' :: p2.data := by
    have : ('p' :: '_' :: (n1.data ++ '_' :: p1.data) : List Char)
        = 'p' :: '_' :: (n2.data ++ '_' :: p2.data) := by
      simpa using hd
    simpa using this
  rcases underscore_list_inj n1.data p1.data n2.data p2.data h1 h2 hd2 with ⟨ha, hb⟩
  exact ⟨string_data_inj ha, string_data_inj hb⟩

theorem partnerLinksFor_decode (W H : ℚ) (nodes : List PNode) (node : PNode) :
    ∀ l ∈ partnerLinksFor W H nodes node, ∃ pid ∈ node.partners,
      ∃ partner, resolveNode nodes pid = some partner ∧ node.id < pid ∧
        l = { id := "p_" ++ node.id ++ "_" ++ pid,
              x1 := (getOptimalConnectionPoints W H node partner).1.1,
              y1 := (getOptimalConnectionPoints W H node partner).1.2,
              x2 := (getOptimalConnectionPoints W H node partner).2.1,
              y2 := (getOptimalConnectionPoints W H node partner).2.2 } := by
  intro l hl
  unfold partnerLinksFor at hl
  rcases List.mem_filterMap.mp hl with ⟨pid, hpid, heq⟩
  simp only at heq
  rcases hres : resolveNode nodes pid with _ | partner
  · simp only [hres] at heq
    exact Option.noConfusion heq
  · simp only [hres] at heq
    by_cases hlt : node.id < pid
    · rw [if_pos hlt] at heq
      refine ⟨pid, hpid, partner, hres, hlt, ?_⟩
      injection heq with heq'
      exact heq'.symm
    · rw [if_neg hlt] at heq
      exact Option.noConfusion heq

theorem partnerLinks_shape (W H : ℚ) (nodes : List PNode) :
    ∀ l ∈ partnerLinks W H nodes, ∃ n pid, l.id = "p_" ++ n ++ "_" ++ pid := by
  intro l hl
  unfold partnerLinks at hl
  rcases List.mem_flatten.mp hl with ⟨sub, hsub, hmem⟩
  rcases List.mem_map.mp hsub with ⟨node, _, rfl⟩
  rcases partnerLinksFor_decode W H nodes node l hmem with ⟨pid, _, partner, _, _, rfl⟩
  exact ⟨node.id, pid, rfl⟩

theorem pstring_assoc (t : String) : ∀ a b : String, t ++ a ++ "_" ++ b = t ++ (a ++ "_" ++ b) := by
  intro a b
  simp [String.append_assoc]

theorem sum_map_ite_countP {α : Type} (p : α → Bool) :
    ∀ l : List α, (l.map fun a => if p a then 1 else 0).sum = l.countP p := by
  intro l
  induction l with
  | nil => rfl
  | cons a rest ih =>
    simp only [List.map_cons, List.sum_cons, List.countP_cons, ih]
    by_cases hp : p a <;> simp [hp] <;> omega

theorem famEmitted_countP_vmain_zero (W H : ℚ) (nodes : List PNode) (acc : List TreeLink)
    (fam' : String × List PNode) (fid : String) (hne : fam'.1 ≠ fid) :
    (famEmitted W H nodes acc fam').countP (fun l => l.id = "bus_v_main_" ++ fid) = 0 := by
  rw [List.countP_eq_zero]
  intro l hl
  simp only [decide_eq_true_eq]
  intro h
  rcases famEmitted_shapes W H nodes acc fam' l hl with
    ⟨t, ht⟩ | ht | ⟨t, ht⟩ | ht | ht | ⟨c, _, ht⟩ <;> rw [ht] at h
  · exact string_append_ne_of_no_pre "pc_" "bus_v_main_" (by decide) (by decide) t fid h
  · exact string_append_ne_of_no_pre "p_" "bus_v_main_" (by decide) (by decide) fam'.1 fid h
  · exact string_append_ne_of_no_pre "fam_" "bus_v_main_" (by decide) (by decide) t fid h
  · exact hne (string_append_left_inj "bus_v_main_" fam'.1 fid h)
  · exact string_append_ne_of_no_pre "bus_h_" "bus_v_main_" (by decide) (by decide) fam'.1 fid h
  · exact string_append_ne_of_no_pre "bus_v_child_" "bus_v_main_" (by decide) (by decide) c.id fid h

theorem famEmitted_countP_hbus_zero (W H : ℚ) (nodes : List PNode) (acc : List TreeLink)
    (fam' : String × List PNode) (fid : String) (hne : fam'.1 ≠ fid) :
    (famEmitted W H nodes acc fam').countP (fun l => l.id = "bus_h_" ++ fid) = 0 := by
  rw [List.countP_eq_zero]
  intro l hl
  simp only [decide_eq_true_eq]
  intro h
  rcases famEmitted_shapes W H nodes acc fam' l hl with
    ⟨t, ht⟩ | ht | ⟨t, ht⟩ | ht | ht | ⟨c, _, ht⟩ <;> rw [ht] at h
  · exact string_append_ne_of_no_pre "pc_" "bus_h_" (by decide) (by decide) t fid h
  · exact string_append_ne_of_no_pre "p_" "bus_h_" (by decide) (by decide) fam'.1 fid h
  · exact string_append_ne_of_no_pre "fam_" "bus_h_" (by decide) (by decide) t fid h
  · exact string_append_ne_of_no_pre "bus_v_main_" "bus_h_" (by decide) (by decide) fam'.1 fid h
  · exact hne (string_append_left_inj "bus_h_" fam'.1 fid h)
  · exact string_append_ne_of_no_pre "bus_v_child_" "bus_h_" (by decide) (by decide) c.id fid h

theorem famEmitted_countP_drop_zero (W H : ℚ) (nodes : List PNode) (acc : List TreeLink)
    (fam' : String × List PNode) (cid : String)
    (hdisj : ∀ c' ∈ fam'.2, ¬ (c'.id = cid)) :
    (famEmitted W H nodes acc fam').countP (fun l => l.id = "bus_v_child_" ++ cid) = 0 := by
  rw [List.countP_eq_zero]
  intro l hl
  simp only [decide_eq_true_eq]
  intro h
  rcases famEmitted_shapes W H nodes acc fam' l hl with
    ⟨t, ht⟩ | ht | ⟨t, ht⟩ | ht | ht | ⟨c, hc, ht⟩ <;> rw [ht] at h
  · exact string_append_ne_of_no_pre "pc_" "bus_v_child_" (by decide) (by decide) t cid h
  · exact string_append_ne_of_no_pre "p_" "bus_v_child_" (by decide) (by decide) fam'.1 cid h
  · exact string_append_ne_of_no_pre "fam_" "bus_v_child_" (by decide) (by decide) t cid h
  · exact string_append_ne_of_no_pre "bus_v_main_" "bus_v_child_" (by decide) (by decide)
      fam'.1 cid h
  · exact string_append_ne_of_no_pre "bus_h_" "bus_v_child_" (by decide) (by decide) fam'.1 cid h
  · exact hdisj c hc (string_append_left_inj "bus_v_child_" c.id cid h)

theorem famEmitted_countP_ptarget_zero (W H : ℚ) (nodes : List PNode) (acc : List TreeLink)
    (fam' : String × List PNode) (fid : String) (hne : fam'.1 ≠ fid) :
    (famEmitted W H nodes acc fam').countP (fun l => l.id = "p_" ++ fid) = 0 := by
  rw [List.countP_eq_zero]
  intro l hl
  simp only [decide_eq_true_eq]
  intro h
  rcases famEmitted_shapes W H nodes acc fam' l hl with
    ⟨t, ht⟩ | ht | ⟨t, ht⟩ | ht | ht | ⟨c, _, ht⟩ <;> rw [ht] at h
  · exact string_append_ne_of_no_pre "pc_" "p_" (by decide) (by decide) t fid h
  · exact hne (string_append_left_inj "p_" fam'.1 fid h)
  · exact string_append_ne_of_no_pre "fam_" "p_" (by decide) (by decide) t fid h
  · exact string_append_ne_of_no_pre "bus_v_main_" "p_" (by decide) (by decide) fam'.1 fid h
  · exact string_append_ne_of_no_pre "bus_h_" "p_" (by decide) (by decide) fam'.1 fid h
  · exact string_append_ne_of_no_pre "bus_v_child_" "p_" (by decide) (by decide) c.id fid h

theorem partnerLinks_countP_vmain_zero (W H : ℚ) (nodes : List PNode) (fid : String) :
    (partnerLinks W H nodes).countP (fun l => l.id = "bus_v_main_" ++ fid) = 0 := by
  rw [List.countP_eq_zero]
  intro l hl
  simp only [decide_eq_true_eq]
  intro h
  rcases partnerLinks_shape W H nodes l hl with ⟨n, pid, hid⟩
  rw [hid, pstring_assoc "p_" n pid] at h
  exact string_append_ne_of_no_pre "p_" "bus_v_main_" (by decide) (by decide) _ fid h

theorem partnerLinks_countP_hbus_zero (W H : ℚ) (nodes : List PNode) (fid : String) :
    (partnerLinks W H nodes).countP (fun l => l.id = "bus_h_" ++ fid) = 0 := by
  rw [List.countP_eq_zero]
  intro l hl
  simp only [decide_eq_true_eq]
  intro h
  rcases partnerLinks_shape W H nodes l hl with ⟨n, pid, hid⟩
  rw [hid, pstring_assoc "p_" n pid] at h
  exact string_append_ne_of_no_pre "p_" "bus_h_" (by decide) (by decide) _ fid h

theorem partnerLinks_countP_drop_zero (W H : ℚ) (nodes : List PNode) (cid : String) :
    (partnerLinks W H nodes).countP (fun l => l.id = "bus_v_child_" ++ cid) = 0 := by
  rw [List.countP_eq_zero]
  intro l hl
  simp only [decide_eq_true_eq]
  intro h
  rcases partnerLinks_shape W H nodes l hl with ⟨n, pid, hid⟩
  rw [hid, pstring_assoc "p_" n pid] at h
  exact string_append_ne_of_no_pre "p_" "bus_v_child_" (by decide) (by decide) _ cid h

theorem busLinksFor_countP_ptarget_zero (W : ℚ) (fid : String) (pmx pmy : ℚ)
    (sorted : List PNode) (t : String) :
    (busLinksFor W fid pmx pmy sorted).countP (fun l => l.id = "p_" ++ t) = 0 := by
  rw [List.countP_eq_zero]
  intro l hl
  simp only [decide_eq_true_eq]
  intro h
  rcases busLinksFor_shapes W fid pmx pmy sorted l hl with ht | ht | ⟨c, _, ht⟩ <;> rw [ht] at h
  · exact string_append_ne_of_no_pre "bus_v_main_" "p_" (by decide) (by decide) fid t h
  · exact string_append_ne_of_no_pre "bus_h_" "p_" (by decide) (by decide) fid t h
  · exact string_append_ne_of_no_pre "bus_v_child_" "p_" (by decide) (by decide) c.id t h

theorem partnerLinks_countP_ptarget_le_one (W H : ℚ) (nodes : List PNode)
    (hids : (nodes.map PNode.id).Nodup)
    (hus : ∀ n ∈ nodes, ¬ '_' ∈ n.id.data)
    (hpnd : ∀ n ∈ nodes, n.partners.Nodup)
    (paid pbid : String) (hpa : ¬ '_' ∈ paid.data) :
    (partnerLinks W H nodes).countP (fun l => l.id = "p_" ++ paid ++ "_" ++ pbid) ≤ 1 := by
  unfold partnerLinks
  rw [List.countP_flatten, List.map_map]
  have hpoint : ∀ n ∈ nodes,
      (List.countP (fun l => l.id = "p_" ++ paid ++ "_" ++ pbid) ∘
        partnerLinksFor W H nodes) n ≤ (if n.id = paid then 1 else 0) := by
    intro n hn
    simp only [Function.comp_apply]
    by_cases hne : n.id = paid
    · rw [if_pos hne]
      unfold partnerLinksFor
      rw [List.countP_filterMap]
      have hmono : ∀ pid ∈ n.partners,
          ((Option.map (fun l : TreeLink => decide (l.id = "p_" ++ paid ++ "_" ++ pbid))
            ((fun pid =>
              match resolveNode nodes pid with
              | none => none
              | some partner =>
                if n.id < pid then
                  let cp := getOptimalConnectionPoints W H n partner
                  some { id := "p_" ++ n.id ++ "_" ++ pid,
                         x1 := cp.1.1, y1 := cp.1.2, x2 := cp.2.1, y2 := cp.2.2,
                         hasArrow := false }
                else none) pid)).getD false) = true →
          (decide (pid = pbid)) = true := by
        intro pid _ htrue
        simp only at htrue
        rcases hres : resolveNode nodes pid with _ | partner
        · rw [hres] at htrue; simp at htrue
        · rw [hres] at htrue
          dsimp only at htrue
          by_cases hlt : n.id < pid
          · rw [if_pos hlt] at htrue
            simp only [Option.map_some', Option.getD_some, decide_eq_true_eq] at htrue
            have := plink_id_inj n.id pid paid pbid (hus n hn) hpa htrue
            simp [this.2]
          · rw [if_neg hlt] at htrue; simp at htrue
      calc List.countP _ n.partners ≤ n.partners.countP fun pid => pid = pbid :=
            List.countP_mono_left hmono
        _ ≤ 1 := countP_map_eq_le_one id n.partners (by simpa using hpnd n hn) pbid
    · rw [if_neg hne]
      have hzero : (partnerLinksFor W H nodes n).countP
          (fun l => l.id = "p_" ++ paid ++ "_" ++ pbid) = 0 := by
        rw [List.countP_eq_zero]
        intro l hl
        simp only [decide_eq_true_eq]
        intro h
        rcases partnerLinksFor_decode W H nodes n l hl with ⟨pid, _, partner, _, _, rfl⟩
        simp only at h
        exact hne (plink_id_inj n.id pid paid pbid (hus n hn) hpa h).1
      exact le_of_eq hzero
  calc (nodes.map ((List.countP fun l => l.id = "p_" ++ paid ++ "_" ++ pbid) ∘
        partnerLinksFor W H nodes)).sum
      ≤ (nodes.map fun n => if n.id = paid then 1 else 0).sum := List.sum_le_sum hpoint
    _ = nodes.countP fun n => n.id = paid := by
        rw [← sum_map_ite_countP (fun n => decide (n.id = paid)) nodes]
        simp

    _ ≤ 1 := countP_map_eq_le_one PNode.id nodes hids paid

/-- The per-family content C3 asserts of the rendered link set: exactly one
vertical trunk from the parent mid-point `(pmx, pmy)` down
`Y_SPACING_BUS = 100`, exactly one horizontal trunk at that offset spanning
from `min(pmx, leftmost child centre)` to `max(pmx, rightmost child centre)`,
and exactly one arrowed vertical drop per child ending at the child's
top-mid. -/
def BusSpec (links : List TreeLink) (W : ℚ) (fid : String) (children : List PNode)
    (pmx pmy : ℚ) : Prop :=
  let sorted := children.mergeSort fun a b => a.x ≤ b.x
  (links.countP (fun l => l.id = "bus_v_main_" ++ fid) = 1) ∧
  ((⟨"bus_v_main_" ++ fid, pmx, pmy, pmx, pmy + 100, false⟩ : TreeLink) ∈ links) ∧
  (links.countP (fun l => l.id = "bus_h_" ++ fid) = 1) ∧
  ((⟨"bus_h_" ++ fid,
      min pmx (((sorted.head?).map fun c => c.x + W / 2).getD pmx), pmy + 100,
      max pmx (((sorted.getLast?).map fun c => c.x + W / 2).getD pmx), pmy + 100,
      false⟩ : TreeLink) ∈ links) ∧
  (∀ c ∈ children,
    (links.countP (fun l => l.id = "bus_v_child_" ++ c.id) = 1) ∧
      (⟨"bus_v_child_" ++ c.id, c.x + W / 2, pmy + 100, c.x + W / 2, c.y, true⟩ : TreeLink)
        ∈ links)

theorem busSpec_assemble (W H : ℚ) (nodes : List PNode)
    (hids : (nodes.map PNode.id).Nodup)
    (fid : String) (children : List PNode) (pre post : List (String × List PNode))
    (hsplit : buildFamilies nodes = pre ++ (fid, children) :: post)
    (pmx pmy : ℚ) (extra : List TreeLink)
    (hemit : famEmitted W H nodes
        (pre.foldl (processFamily W H nodes) (partnerLinks W H nodes)) (fid, children) =
      extra ++ busLinksFor W fid pmx pmy (children.mergeSort fun a b => a.x ≤ b.x))
    (hextra : ∀ l ∈ extra, ∃ t, l.id = "p_" ++ t) :
    BusSpec (calculateLinks W H nodes) W fid children pmx pmy := by
  have hkeys := buildFamilies_keys_nodup nodes
  rw [hsplit] at hkeys
  simp only [List.map_append, List.map_cons] at hkeys
  rcases List.nodup_append.mp hkeys with ⟨_, hk2, hdisj⟩
  have hfid_notin_post : ¬ fid ∈ post.map Prod.fst := (List.nodup_cons.mp hk2).1
  have hne_pre : ∀ fam' ∈ pre, fam'.1 ≠ fid := by
    intro fam' hf heq
    have := hdisj (List.mem_map_of_mem Prod.fst hf)
    exact this (heq ▸ List.mem_cons_self _ _)
  have hne_post : ∀ fam' ∈ post, fam'.1 ≠ fid := by
    intro fam' hf heq
    exact hfid_notin_post (heq ▸ List.mem_map_of_mem Prod.fst hf)
  have hmem0 : (fid, children) ∈ buildFamilies nodes := by
    rw [hsplit]
    exact List.mem_append_right _ (List.mem_cons_self _ _)
  have hfinal : calculateLinks W H nodes =
      post.foldl (processFamily W H nodes)
        ((pre.foldl (processFamily W H nodes) (partnerLinks W H nodes)) ++
          famEmitted W H nodes
            (pre.foldl (processFamily W H nodes) (partnerLinks W H nodes)) (fid, children)) := by
    unfold calculateLinks
    rw [hsplit, List.foldl_append, List.foldl_cons]
    rfl
  have hcount : ∀ p : TreeLink → Bool,
      (∀ (acc' : List TreeLink) (fam' : String × List PNode), fam' ∈ pre ∨ fam' ∈ post →
        (famEmitted W H nodes acc' fam').countP p = 0) →
      (calculateLinks W H nodes).countP p =
        (partnerLinks W H nodes).countP p +
          (famEmitted W H nodes
            (pre.foldl (processFamily W H nodes) (partnerLinks W H nodes))
            (fid, children)).countP p := by
    intro p hz
    rw [hfinal, processFoldl_countP_const W H nodes p post _
      (fun acc' fam' hf => hz acc' fam' (Or.inr hf))]
    rw [List.countP_append]
    rw [processFoldl_countP_const W H nodes p pre _
      (fun acc' fam' hf => hz acc' fam' (Or.inl hf))]
  have hmemfinal : ∀ x ∈ busLinksFor W fid pmx pmy
      (children.mergeSort fun a b => a.x ≤ b.x), x ∈ calculateLinks W H nodes := by
    intro x hx
    rw [hfinal]
    apply processFoldl_mem
    apply List.mem_append_right
    rw [hemit]
    exact List.mem_append_right _ hx
  have hextra_vmain : extra.countP (fun l => l.id = "bus_v_main_" ++ fid) = 0 := by
    rw [List.countP_eq_zero]
    intro l hl
    simp only [decide_eq_true_eq]
    intro h
    rcases hextra l hl with ⟨t, ht⟩
    rw [ht] at h
    exact string_append_ne_of_no_pre "p_" "bus_v_main_" (by decide) (by decide) t fid h
  have hextra_hbus : extra.countP (fun l => l.id = "bus_h_" ++ fid) = 0 := by
    rw [List.countP_eq_zero]
    intro l hl
    simp only [decide_eq_true_eq]
    intro h
    rcases hextra l hl with ⟨t, ht⟩
    rw [ht] at h
    exact string_append_ne_of_no_pre "p_" "bus_h_" (by decide) (by decide) t fid h
  refine ⟨?_, ?_, ?_, ?_, ?_⟩
  · rw [hcount _ (fun acc' fam' hf => famEmitted_countP_vmain_zero W H nodes acc' fam' fid
      (hf.elim (hne_pre fam') (hne_post fam')))]
    rw [partnerLinks_countP_vmain_zero, hemit, List.countP_append, hextra_vmain,
      busLinksFor_countP_vmain]
  · exact hmemfinal _ (busLinksFor_mem_vmain W fid pmx pmy _)
  · rw [hcount _ (fun acc' fam' hf => famEmitted_countP_hbus_zero W H nodes acc' fam' fid
      (hf.elim (hne_pre fam') (hne_post fam')))]
    rw [partnerLinks_countP_hbus_zero, hemit, List.countP_append, hextra_hbus,
      busLinksFor_countP_hbus]
  · exact hmemfinal _ (busLinksFor_mem_hbus W fid pmx pmy _)
  · intro c hc
    have hchild := buildFamilies_child_count nodes hids (fid, children) hmem0 c hc
    have hdisj' : ∀ (acc' : List TreeLink) (fam' : String × List PNode),
        fam' ∈ pre ∨ fam' ∈ post →
        (famEmitted W H nodes acc' fam').countP (fun l => l.id = "bus_v_child_" ++ c.id) = 0 := by
      intro acc' fam' hf
      apply famEmitted_countP_drop_zero
      intro c' hc'
      have hfmem : fam' ∈ buildFamilies nodes := by
        rw [hsplit]
        rcases hf with hf | hf
        · exact List.mem_append_left _ hf
        · exact List.mem_append_right _ (List.mem_cons_of_mem _ hf)
      exact hchild.2 fam' hfmem (hf.elim (hne_pre fam') (hne_post fam')) c' hc'
    have hextra_drop : extra.countP (fun l => l.id = "bus_v_child_" ++ c.id) = 0 := by
      rw [List.countP_eq_zero]
      intro l hl
      simp only [decide_eq_true_eq]
      intro h
      rcases hextra l hl with ⟨t, ht⟩
      rw [ht] at h
      exact string_append_ne_of_no_pre "p_" "bus_v_child_" (by decide) (by decide) t c.id h
    constructor
    · rw [hcount _ hdisj']
      rw [partnerLinks_countP_drop_zero, hemit, List.countP_append, hextra_drop,
        busLinksFor_countP_drop]
      have hperm := List.mergeSort_perm children fun a b => a.x ≤ b.x
      rw [hperm.countP_eq]
      have h1 : children.countP (fun n => n.id = c.id) = 1 := hchild.1
      omega
    · apply hmemfinal
      apply busLinksFor_mem_drop
      exact ((List.mergeSort_perm children _).mem_iff).mpr hc

/-- C3 (amended): for every family recorded by `buildFamilies` (other than the
synthetic super-root family) with at least two children, `calculateLinks`
emits exactly one vertical trunk `bus_v_main_<famId>` from the parent
mid-point `(pmx, pmy)` down by the fixed offset `Y_SPACING_BUS = 100`,
exactly one horizontal trunk `bus_h_<famId>` at that offset spanning from
`min(pmx, leftmost child centre)` to `max(pmx, rightmost child centre)` —
the span includes the parent mid-point, not merely the children's centres as
the spec words it — and exactly one arrowed vertical drop per child ending at
that child's top-mid; a two-parent family additionally has exactly one
partner link `p_<a>_<b>` in the final list, and its mid-point anchors the
bus. For a single-parent family the anchor is the parent's bottom-centre. -/
theorem calculateLinks_bus (W H : ℚ) (nodes : List PNode)
    (hids : (nodes.map PNode.id).Nodup)
    (hus : ∀ n ∈ nodes, ¬ '_' ∈ n.id.data)
    (hpnd : ∀ n ∈ nodes, n.partners.Nodup)
    (fid : String) (children : List PNode) (pre post : List (String × List PNode))
    (hsplit : buildFamilies nodes = pre ++ (fid, children) :: post)
    (hsr : ¬ fid = "super-root") (hlen : 2 ≤ children.length) :
    (∀ p1id parent1, splitUnderscore fid = [p1id] →
        resolveNode nodes p1id = some parent1 →
        BusSpec (calculateLinks W H nodes) W fid children
          (parent1.x + W / 2) (parent1.y + H)) ∧
    (∀ paid pbid parent1 parent2, splitUnderscore fid = [paid, pbid] →
        resolveNode nodes paid = some parent1 → resolveNode nodes pbid = some parent2 →
        ∃ pl : TreeLink,
          pl.id = "p_" ++ paid ++ "_" ++ pbid ∧
          pl ∈ calculateLinks W H nodes ∧
          (calculateLinks W H nodes).countP
            (fun l => l.id = "p_" ++ paid ++ "_" ++ pbid) = 1 ∧
          BusSpec (calculateLinks W H nodes) W fid children
            ((pl.x1 + pl.x2) / 2) ((pl.y1 + pl.y2) / 2)) := by
  have hkeys := buildFamilies_keys_nodup nodes
  rw [hsplit] at hkeys
  simp only [List.map_append, List.map_cons] at hkeys
  rcases List.nodup_append.mp hkeys with ⟨_, hk2, hdisj⟩
  have hne_pre : ∀ fam' ∈ pre, fam'.1 ≠ fid := by
    intro fam' hf heq
    have := hdisj (List.mem_map_of_mem Prod.fst hf)
    exact this (heq ▸ List.mem_cons_self _ _)
  have hne_post : ∀ fam' ∈ post, fam'.1 ≠ fid := by
    intro fam' hf heq
    exact (List.nodup_cons.mp hk2).1 (heq ▸ List.mem_map_of_mem Prod.fst hf)
  constructor
  · intro p1id parent1 hsp hres
    refine busSpec_assemble W H nodes hids fid children pre post hsplit
      (parent1.x + W / 2) (parent1.y + H) [] ?_ ?_
    · rw [List.nil_append]
      exact famEmitted_single_bus W H nodes _ fid children p1id parent1 hsr hsp hres hlen
    · intro l hl
      exact absurd hl (List.not_mem_nil l)
  · intro paid pbid parent1 parent2 hsp hra hrb
    obtain ⟨hfid_eq, hpa, _⟩ := splitUnderscore_length_two fid paid pbid hsp
    have hassoc : "p_" ++ paid ++ "_" ++ pbid = "p_" ++ fid := by
      rw [hfid_eq]
      exact pstring_assoc "p_" paid pbid
    have hpred : (fun l : TreeLink => decide (l.id = "p_" ++ paid ++ "_" ++ pbid)) =
        (fun l : TreeLink => decide (l.id = "p_" ++ fid)) := by
      funext l
      rw [hassoc]
    set accPre := pre.foldl (processFamily W H nodes) (partnerLinks W H nodes) with hacc
    have hfinal : calculateLinks W H nodes =
        post.foldl (processFamily W H nodes)
          (accPre ++ famEmitted W H nodes accPre (fid, children)) := by
      unfold calculateLinks
      rw [hsplit, List.foldl_append, List.foldl_cons]
      rfl
    have hzp : ∀ (acc' : List TreeLink) (fam' : String × List PNode),
        fam' ∈ pre ∨ fam' ∈ post →
        (famEmitted W H nodes acc' fam').countP
          (fun l => l.id = "p_" ++ paid ++ "_" ++ pbid) = 0 := by
      intro acc' fam' hf
      rw [hpred]
      exact famEmitted_countP_ptarget_zero W H nodes acc' fam' fid
        (hf.elim (hne_pre fam') (hne_post fam'))
    have haccPre_count : accPre.countP (fun l => l.id = "p_" ++ paid ++ "_" ++ pbid) =
        (partnerLinks W H nodes).countP (fun l => l.id = "p_" ++ paid ++ "_" ++ pbid) :=
      processFoldl_countP_const W H nodes _ pre _
        (fun acc' fam' hf => hzp acc' fam' (Or.inl hf))
    have hinit_le := partnerLinks_countP_ptarget_le_one W H nodes hids hus hpnd paid pbid hpa
    rcases hfind : accPre.find? (fun l => l.id = "p_" ++ paid ++ "_" ++ pbid) with _ | pl
    · have hemit := famEmitted_two_not_found W H nodes accPre fid children paid pbid
        parent1 parent2 hsr hsp hra hrb hfind hlen
      refine ⟨newPartnerLink W H paid pbid parent1 parent2, rfl, ?_, ?_, ?_⟩
      · rw [hfinal]
        apply processFoldl_mem
        apply List.mem_append_right
        rw [hemit]
        exact List.mem_cons_self _ _
      · rw [hfinal, processFoldl_countP_const W H nodes _ post _
          (fun acc' fam' hf => hzp acc' fam' (Or.inr hf)), List.countP_append]
        have h0 : accPre.countP (fun l => l.id = "p_" ++ paid ++ "_" ++ pbid) = 0 := by
          rw [List.countP_eq_zero]
          intro l hl
          exact List.find?_eq_none.mp hfind l hl
        have hbus0 : (busLinksFor W fid
            (((newPartnerLink W H paid pbid parent1 parent2).x1 +
              (newPartnerLink W H paid pbid parent1 parent2).x2) / 2)
            (((newPartnerLink W H paid pbid parent1 parent2).y1 +
              (newPartnerLink W H paid pbid parent1 parent2).y2) / 2)
            (children.mergeSort fun a b => a.x ≤ b.x)).countP
              (fun l => l.id = "p_" ++ paid ++ "_" ++ pbid) = 0 := by
          rw [hpred]
          exact busLinksFor_countP_ptarget_zero W fid _ _ _ fid
        rw [h0, hemit, List.countP_cons, hbus0]
        simp [newPartnerLink]
      · refine busSpec_assemble W H nodes hids fid children pre post hsplit _ _
          [newPartnerLink W H paid pbid parent1 parent2] ?_ ?_
        · rw [← hacc, List.singleton_append]
          exact hemit
        · intro l hl
          rw [List.mem_singleton] at hl
          refine ⟨paid ++ "_" ++ pbid, ?_⟩
          rw [hl]
          exact pstring_assoc "p_" paid pbid
    · have hemit := famEmitted_two_found W H nodes accPre fid children paid pbid
        parent1 parent2 pl hsr hsp hra hrb hfind hlen
      have hplid : pl.id = "p_" ++ paid ++ "_" ++ pbid := by
        have := List.find?_some hfind
        simpa using this
      have hplmem : pl ∈ accPre := List.mem_of_find?_eq_some hfind
      refine ⟨pl, hplid, ?_, ?_, ?_⟩
      · rw [hfinal]
        exact processFoldl_mem W H nodes post _ pl (List.mem_append_left _ hplmem)
      · rw [hfinal, processFoldl_countP_const W H nodes _ post _
          (fun acc' fam' hf => hzp acc' fam' (Or.inr hf)), List.countP_append]
        have hbus0 : (famEmitted W H nodes accPre (fid, children)).countP
            (fun l => l.id = "p_" ++ paid ++ "_" ++ pbid) = 0 := by
          rw [hemit, hpred]
          exact busLinksFor_countP_ptarget_zero W fid _ _ _ fid
        have hge : 0 < accPre.countP (fun l => l.id = "p_" ++ paid ++ "_" ++ pbid) :=
          List.countP_pos_iff.mpr ⟨pl, hplmem, by simp [hplid]⟩
        rw [hbus0, haccPre_count] at *
        omega
      · refine busSpec_assemble W H nodes hids fid children pre post hsplit
          ((pl.x1 + pl.x2) / 2) ((pl.y1 + pl.y2) / 2) [] ?_ ?_
        · rw [← hacc, List.nil_append]
          exact hemit
        · intro l hl
          exact absurd hl (List.not_mem_nil l)

/-- Two-parent three-child scenario from the spec: partners `P1`, `P2`
(mutually listed), children `C1 < C2 < C3` by `x`, each recording parent `P1`
and co-parent `P2`. -/
def c3P1 : PNode := ⟨"P1", 0, 0, 0, none, ["C1", "C2", "C3"], ["P2"], none⟩

def c3P2 : PNode := ⟨"P2", 200, 0, 0, none, [], ["P1"], none⟩

def c3C1 : PNode := ⟨"C1", 0, 300, 1, some "P1", [], [], some "P2"⟩

def c3C2 : PNode := ⟨"C2", 200, 300, 1, some "P1", [], [], some "P2"⟩

def c3C3 : PNode := ⟨"C3", 400, 300, 1, some "P1", [], [], some "P2"⟩

def c3Nodes : List PNode := [c3P1, c3P2, c3C1, c3C2, c3C3]

/-- Single-parent two-child scenario separating the code's horizontal-trunk
span from the spec's: parent `P` far right at `x = 1000`, children at
`x = 0` and `x = 200`. -/
def cxP : PNode := ⟨"P", 1000, 0, 0, none, ["C1", "C2"], [], none⟩

def cxC1 : PNode := ⟨"C1", 0, 300, 1, some "P", [], [], none⟩

def cxC2 : PNode := ⟨"C2", 200, 300, 1, some "P", [], [], none⟩

def cxNodes : List PNode := [cxP, cxC1, cxC2]

/-- Witness: on the spec's two-parent three-child scenario (`c3Nodes`,
node size 120×120) the family `P1_P2` receives exactly one partner link and
the full bus of `calculateLinks_bus`. -/
theorem calculateLinks_bus_witness :
    ∃ pl : TreeLink,
      pl.id = "p_" ++ "P1" ++ "_" ++ "P2" ∧
      pl ∈ calculateLinks 120 120 c3Nodes ∧
      (calculateLinks 120 120 c3Nodes).countP
        (fun l => l.id = "p_" ++ "P1" ++ "_" ++ "P2") = 1 ∧
      BusSpec (calculateLinks 120 120 c3Nodes) 120 "P1_P2" [c3C1, c3C2, c3C3]
        ((pl.x1 + pl.x2) / 2) ((pl.y1 + pl.y2) / 2) :=
  (calculateLinks_bus 120 120 c3Nodes (by decide) (by decide) (by decide)
      "P1_P2" [c3C1, c3C2, c3C3] [] [] (by rfl) (by decide) (by decide)).2
    "P1" "P2" c3P1 c3P2 (by rfl) (by rfl) (by rfl)

/-- The claim's literal span is refuted: on `cxNodes` (parent centre at
`x = 1060`, children centres at `60` and `260`) the unique horizontal trunk
`bus_h_P` ends at `max(1060, 260) = 1060`, not at the rightmost child's
centre `260` as the claim states. -/
theorem calculateLinks_bus_claim_counterexample :
    ∃ l ∈ calculateLinks 120 120 cxNodes,
      l.id = "bus_h_P" ∧
      (calculateLinks 120 120 cxNodes).countP (fun l => l.id = "bus_h_P") = 1 ∧
      ¬ l.x2 = cxC2.x + 120 / 2 := by
  have hms : [cxC1, cxC2].mergeSort (fun a b => a.x ≤ b.x) = [cxC1, cxC2] :=
    List.mergeSort_of_sorted (by decide)
  have hspec : BusSpec (calculateLinks 120 120 cxNodes) 120 "P" [cxC1, cxC2]
      (cxP.x + 120 / 2) (cxP.y + 120) := by
    refine busSpec_assemble 120 120 cxNodes (by decide) "P" [cxC1, cxC2] [] []
      (by rfl) (cxP.x + 120 / 2) (cxP.y + 120) [] ?_ ?_
    · rw [List.nil_append]
      exact famEmitted_single_bus 120 120 cxNodes _ "P" [cxC1, cxC2] "P" cxP
        (by decide) (by rfl) (by rfl) (by decide)
    · intro l hl
      exact absurd hl (List.not_mem_nil l)
  simp only [BusSpec, hms] at hspec
  obtain ⟨-, -, hcnt, hmem, -⟩ := hspec
  simp only [List.head?_cons, List.getLast?_cons_cons, List.getLast?_singleton,
    Option.map_some', Option.getD_some] at hmem
  refine ⟨_, hmem, rfl, ?_, ?_⟩
  · exact hcnt
  · show ¬ max (cxP.x + 120 / 2) (cxC2.x + 120 / 2) = cxC2.x + 120 / 2
    simp only [cxP, cxC2]
    have h1 : (200 : ℚ) + 120 / 2 ≤ 1000 + 120 / 2 := by norm_num
    rw [max_eq_left h1]
    norm_num

/-- A JavaScript value for `cloneTreeWithoutCycles`: a primitive (`null` or a
non-object, carried opaquely as a string) or a reference to a heap object. -/
inductive JSVal where
  | prim (s : String)
  | ref (a : Nat)
deriving DecidableEq

/-- A heap object: an array of values or a plain object with ordered
string-keyed fields (`Object.keys` order). -/
inductive JSObj where
  | arr (elems : List JSVal)
  | obj (fields : List (String × JSVal))
deriving DecidableEq

/-- The mutable state of one `cloneTreeWithoutCycles` run: the `seen`
`WeakMap` (source address → copy address), the output heap built so far, and
the next fresh address. -/
structure CloneSt where
  seen : List (Nat × Nat)
  out : List (Nat × JSObj)
  next : Nat
deriving DecidableEq

def lookupSeen : List (Nat × Nat) → Nat → Option Nat
  | [], _ => none
  | (k, v) :: rest, a => if k = a then some v else lookupSeen rest a

def lookupHeap : List (Nat × JSObj) → Nat → Option JSObj
  | [], _ => none
  | (k, o) :: rest, a => if k = a then some o else lookupHeap rest a

/-- `true` when the value is a primitive or refers to an existing heap
object. -/
def valRefIn (h : List (Nat × JSObj)) : JSVal → Bool
  | .prim _ => true
  | .ref a => (lookupHeap h a).isSome

def objClosed (h : List (Nat × JSObj)) : JSObj → Bool
  | .arr elems => elems.all (valRefIn h)
  | .obj fields => fields.all fun kv => valRefIn h kv.2

/-- Every reference stored in any heap object points back into the heap. -/
def closedHeap (h : List (Nat × JSObj)) : Bool :=
  h.all fun p => objClosed h p.2

/-- The number of heap entries whose address has not been recorded in the
`seen` map — the quantity the `WeakMap` check makes strictly decrease. -/
def unseenCount (h : List (Nat × JSObj)) (seen : List (Nat × Nat)) : Nat :=
  h.countP fun p => (lookupSeen seen p.1).isNone

/-- The `for (const v of item) arr.push(clone(v))` loop, abstracted over the
recursive call `cv`. -/
def cloneListGo (cv : CloneSt → JSVal → Option (JSVal × CloneSt)) :
    CloneSt → List JSVal → Option (List JSVal × CloneSt)
  | st, [] => some ([], st)
  | st, v :: vs =>
    match cv st v with
    | none => none
    | some (v', st1) =>
      match cloneListGo cv st1 vs with
      | none => none
      | some (vs', st2) => some (v' :: vs', st2)

/-- The `for (const key of Object.keys(item)) result[key] = clone(item[key])`
loop, abstracted over the recursive call `cv`; the `skipKeys` filter is
applied by the caller. -/
def cloneFieldsGo (cv : CloneSt → JSVal → Option (JSVal × CloneSt)) :
    CloneSt → List (String × JSVal) → Option (List (String × JSVal) × CloneSt)
  | st, [] => some ([], st)
  | st, (k, v) :: rest =>
    match cv st v with
    | none => none
    | some (v', st1) =>
      match cloneFieldsGo cv st1 rest with
      | none => none
      | some (rest', st2) => some ((k, v') :: rest', st2)

/-- The inner `clone` of `cloneTreeWithoutCycles`, with explicit fuel (the
source recursion is unbounded; totality at sufficient fuel is proved below).
Primitives are returned as-is; a reference already in `seen` returns the
existing copy; otherwise a fresh address is reserved, `seen` is extended
BEFORE recursing (the cycle guard), the children are cloned left to right,
and the finished copy is written to the output heap. For plain objects the
keys in `sk` (`skipKeys`) are dropped before cloning. -/
def cloneVal (h : List (Nat × JSObj)) (sk : List String) :
    Nat → CloneSt → JSVal → Option (JSVal × CloneSt)
  | 0, _, _ => none
  | fuel + 1, st, v =>
    match v with
    | .prim s => some (.prim s, st)
    | .ref a =>
      match lookupSeen st.seen a with
      | some a' => some (.ref a', st)
      | none =>
        match lookupHeap h a with
        | none => none
        | some (.arr elems) =>
          match cloneListGo (fun st1 v1 => cloneVal h sk fuel st1 v1)
              ⟨(a, st.next) :: st.seen, st.out, st.next + 1⟩ elems with
          | none => none
          | some (elems', st') =>
            some (.ref st.next, ⟨st'.seen, (st.next, .arr elems') :: st'.out, st'.next⟩)
        | some (.obj fields) =>
          match cloneFieldsGo (fun st1 v1 => cloneVal h sk fuel st1 v1)
              ⟨(a, st.next) :: st.seen, st.out, st.next + 1⟩
              (fields.filter fun kv => ¬ kv.1 ∈ sk) with
          | none => none
          | some (fields', st') =>
            some (.ref st.next, ⟨st'.seen, (st.next, .obj fields') :: st'.out, st'.next⟩)

/-- `cloneTreeWithoutCycles(obj, skipKeys)`: run `clone` on the root with a
fresh `seen` map; `h.length + 1` fuel always suffices (see
`cloneVal_total`). -/
def cloneTreeWithoutCycles (h : List (Nat × JSObj)) (sk : List String)
    (v : JSVal) : Option (JSVal × CloneSt) :=
  cloneVal h sk (h.length + 1) ⟨[], [], 0⟩ v

/-- `seen` extension: every recorded source→copy pair stays recorded. -/
def SeenExt (s s' : List (Nat × Nat)) : Prop :=
  ∀ a b, lookupSeen s a = some b → lookupSeen s' a = some b

theorem seenExt_refl (s : List (Nat × Nat)) : SeenExt s s :=
  fun _ _ hx => hx

theorem seenExt_trans {s1 s2 s3 : List (Nat × Nat)} (h1 : SeenExt s1 s2)
    (h2 : SeenExt s2 s3) : SeenExt s1 s3 :=
  fun a b hx => h2 a b (h1 a b hx)

theorem seenExt_cons (s : List (Nat × Nat)) (a b : Nat)
    (ha : lookupSeen s a = none) : SeenExt s ((a, b) :: s) := by
  intro x y hx
  simp only [lookupSeen]
  by_cases hxa : a = x
  · subst hxa
    rw [ha] at hx
    cases hx
  · rw [if_neg hxa]
    exact hx

theorem unseenCount_mono (h : List (Nat × JSObj)) {s s' : List (Nat × Nat)}
    (hext : SeenExt s s') : unseenCount h s' ≤ unseenCount h s := by
  unfold unseenCount
  apply List.countP_mono_left
  intro p _ hp
  simp only [Option.isNone_iff_eq_none, decide_eq_true_eq] at hp ⊢
  rcases hs : lookupSeen s p.1 with _ | b
  · rfl
  · rw [hext p.1 b hs] at hp
    cases hp

theorem unseenCount_cons_lt (h : List (Nat × JSObj)) (seen : List (Nat × Nat))
    (a b : Nat) (o : JSObj) (hmiss : lookupSeen seen a = none)
    (hheap : lookupHeap h a = some o) :
    unseenCount h ((a, b) :: seen) < unseenCount h seen := by
  induction h with
  | nil => cases hheap
  | cons p rest ih =>
    obtain ⟨k, ob⟩ := p
    unfold unseenCount
    rw [List.countP_cons, List.countP_cons]
    dsimp only
    by_cases hk : k = a
    · subst hk
      have h1 : (lookupSeen ((k, b) :: seen) k).isNone = false := by
        simp [lookupSeen]
      have h2 : (lookupSeen seen k).isNone = true := by
        simp [hmiss]
      simp only [h1, h2, Bool.false_eq_true, if_false, if_true]
      have hle : unseenCount rest ((k, b) :: seen) ≤ unseenCount rest seen :=
        unseenCount_mono rest (seenExt_cons seen k b hmiss)
      unfold unseenCount at hle
      omega
    · have hheap' : lookupHeap rest a = some o := by
        unfold lookupHeap at hheap
        rw [if_neg hk] at hheap
        exact hheap
      have hlt := ih hheap'
      unfold unseenCount at hlt
      have h1 : lookupSeen ((a, b) :: seen) k = lookupSeen seen k := by
        simp only [lookupSeen]
        rw [if_neg (fun hh => hk hh.symm)]
      rw [h1]
      omega

theorem lookupHeap_mem (h : List (Nat × JSObj)) (a : Nat) (o : JSObj)
    (hl : lookupHeap h a = some o) : (a, o) ∈ h := by
  induction h with
  | nil => cases hl
  | cons p rest ih =>
    obtain ⟨k, ob⟩ := p
    unfold lookupHeap at hl
    by_cases hk : k = a
    · subst hk
      rw [if_pos rfl] at hl
      injection hl with hob
      subst hob
      exact List.mem_cons_self _ _
    · rw [if_neg hk] at hl
      exact List.mem_cons_of_mem _ (ih hl)

theorem cloneListGo_seenExt (cv : CloneSt → JSVal → Option (JSVal × CloneSt))
    (hcv : ∀ st v v' st', cv st v = some (v', st') → SeenExt st.seen st'.seen) :
    ∀ (l : List JSVal) (st : CloneSt) (l' : List JSVal) (st' : CloneSt),
      cloneListGo cv st l = some (l', st') → SeenExt st.seen st'.seen := by
  intro l
  induction l with
  | nil =>
    intro st l' st' hres
    unfold cloneListGo at hres
    injection hres with h1
    injection h1 with _ h2
    subst h2
    exact seenExt_refl _
  | cons v vs ih =>
    intro st l' st' hres
    unfold cloneListGo at hres
    rcases hcv1 : cv st v with _ | ⟨v1, st1⟩
    · rw [hcv1] at hres
      cases hres
    · rw [hcv1] at hres
      dsimp only at hres
      rcases hgo : cloneListGo cv st1 vs with _ | ⟨vs2, st2⟩
      · rw [hgo] at hres
        cases hres
      · rw [hgo] at hres
        injection hres with h1
        injection h1 with _ h2
        rw [← h2]
        exact seenExt_trans (hcv st v v1 st1 hcv1) (ih st1 vs2 st2 hgo)

theorem cloneFieldsGo_seenExt (cv : CloneSt → JSVal → Option (JSVal × CloneSt))
    (hcv : ∀ st v v' st', cv st v = some (v', st') → SeenExt st.seen st'.seen) :
    ∀ (l : List (String × JSVal)) (st : CloneSt) (l' : List (String × JSVal)) (st' : CloneSt),
      cloneFieldsGo cv st l = some (l', st') → SeenExt st.seen st'.seen := by
  intro l
  induction l with
  | nil =>
    intro st l' st' hres
    unfold cloneFieldsGo at hres
    injection hres with h1
    injection h1 with _ h2
    subst h2
    exact seenExt_refl _
  | cons kv rest ih =>
    obtain ⟨k, v⟩ := kv
    intro st l' st' hres
    unfold cloneFieldsGo at hres
    rcases hcv1 : cv st v with _ | ⟨v1, st1⟩
    · rw [hcv1] at hres
      cases hres
    · rw [hcv1] at hres
      dsimp only at hres
      rcases hgo : cloneFieldsGo cv st1 rest with _ | ⟨vs2, st2⟩
      · rw [hgo] at hres
        cases hres
      · rw [hgo] at hres
        injection hres with h1
        injection h1 with _ h2
        rw [← h2]
        exact seenExt_trans (hcv st v v1 st1 hcv1) (ih st1 vs2 st2 hgo)

theorem cloneVal_seenExt (h : List (Nat × JSObj)) (sk : List String) :
    ∀ (fuel : Nat) (st : CloneSt) (v : JSVal) (v' : JSVal) (st' : CloneSt),
      cloneVal h sk fuel st v = some (v', st') → SeenExt st.seen st'.seen := by
  intro fuel
  induction fuel with
  | zero =>
    intro st v v' st' hres
    cases hres
  | succ fuel ih =>
    intro st v v' st' hres
    unfold cloneVal at hres
    match v with
    | .prim s =>
      dsimp only at hres
      injection hres with h1
      injection h1 with _ h2
      subst h2
      exact seenExt_refl _
    | .ref a =>
      dsimp only at hres
      rcases hs : lookupSeen st.seen a with _ | a'
      · rw [hs] at hres
        dsimp only at hres
        rcases hh : lookupHeap h a with _ | o
        · rw [hh] at hres
          cases hres
        · rw [hh] at hres
          match o with
          | .arr elems =>
            dsimp only at hres
            rcases hgo : cloneListGo (fun st1 v1 => cloneVal h sk fuel st1 v1)
                ⟨(a, st.next) :: st.seen, st.out, st.next + 1⟩ elems with _ | ⟨elems', st2⟩
            · rw [hgo] at hres
              cases hres
            · rw [hgo] at hres
              injection hres with h1
              injection h1 with _ h2
              subst h2
              refine seenExt_trans (seenExt_cons st.seen a st.next hs) ?_
              exact cloneListGo_seenExt _ (fun s1 w w' s2 hc => ih s1 w w' s2 hc)
                elems _ elems' st2 hgo
          | .obj fields =>
            dsimp only at hres
            rcases hgo : cloneFieldsGo (fun st1 v1 => cloneVal h sk fuel st1 v1)
                ⟨(a, st.next) :: st.seen, st.out, st.next + 1⟩
                (fields.filter fun kv => ¬ kv.1 ∈ sk) with _ | ⟨fields', st2⟩
            · rw [hgo] at hres
              cases hres
            · rw [hgo] at hres
              injection hres with h1
              injection h1 with _ h2
              subst h2
              refine seenExt_trans (seenExt_cons st.seen a st.next hs) ?_
              exact cloneFieldsGo_seenExt _ (fun s1 w w' s2 hc => ih s1 w w' s2 hc)
                _ _ fields' st2 hgo
      · rw [hs] at hres
        dsimp only at hres
        injection hres with h1
        injection h1 with _ h2
        subst h2
        exact seenExt_refl _

theorem cloneListGo_total (h : List (Nat × JSObj)) (f : Nat)
    (cv : CloneSt → JSVal → Option (JSVal × CloneSt))
    (hext : ∀ st v v' st', cv st v = some (v', st') → SeenExt st.seen st'.seen)
    (htot : ∀ st v, valRefIn h v = true → unseenCount h st.seen < f →
      (cv st v).isSome = true) :
    ∀ (l : List JSVal) (st : CloneSt), (∀ v ∈ l, valRefIn h v = true) →
      unseenCount h st.seen < f → (cloneListGo cv st l).isSome = true := by
  intro l
  induction l with
  | nil =>
    intro st _ _
    rfl
  | cons v vs ih =>
    intro st hall hcnt
    unfold cloneListGo
    have h1 := htot st v (hall v (List.mem_cons_self _ _)) hcnt
    rcases hcv1 : cv st v with _ | ⟨v1, st1⟩
    · rw [hcv1] at h1
      cases h1
    · dsimp only
      have hcnt1 : unseenCount h st1.seen < f :=
        lt_of_le_of_lt (unseenCount_mono h (hext st v v1 st1 hcv1)) hcnt
      have h2 := ih st1 (fun w hw => hall w (List.mem_cons_of_mem _ hw)) hcnt1
      rcases hgo : cloneListGo cv st1 vs with _ | ⟨vs2, st2⟩
      · rw [hgo] at h2
        cases h2
      · rfl

theorem cloneFieldsGo_total (h : List (Nat × JSObj)) (f : Nat)
    (cv : CloneSt → JSVal → Option (JSVal × CloneSt))
    (hext : ∀ st v v' st', cv st v = some (v', st') → SeenExt st.seen st'.seen)
    (htot : ∀ st v, valRefIn h v = true → unseenCount h st.seen < f →
      (cv st v).isSome = true) :
    ∀ (l : List (String × JSVal)) (st : CloneSt),
      (∀ kv ∈ l, valRefIn h kv.2 = true) →
      unseenCount h st.seen < f → (cloneFieldsGo cv st l).isSome = true := by
  intro l
  induction l with
  | nil =>
    intro st _ _
    rfl
  | cons kv rest ih =>
    obtain ⟨k, v⟩ := kv
    intro st hall hcnt
    unfold cloneFieldsGo
    have h1 := htot st v (hall (k, v) (List.mem_cons_self _ _)) hcnt
    rcases hcv1 : cv st v with _ | ⟨v1, st1⟩
    · rw [hcv1] at h1
      cases h1
    · dsimp only
      have hcnt1 : unseenCount h st1.seen < f :=
        lt_of_le_of_lt (unseenCount_mono h (hext st v v1 st1 hcv1)) hcnt
      have h2 := ih st1 (fun w hw => hall w (List.mem_cons_of_mem _ hw)) hcnt1
      rcases hgo : cloneFieldsGo cv st1 rest with _ | ⟨vs2, st2⟩
      · rw [hgo] at h2
        cases h2
      · rfl

theorem cloneVal_total (h : List (Nat × JSObj)) (sk : List String)
    (hclosed : closedHeap h = true) :
    ∀ (fuel : Nat) (st : CloneSt) (v : JSVal), valRefIn h v = true →
      unseenCount h st.seen < fuel → (cloneVal h sk fuel st v).isSome = true := by
  intro fuel
  induction fuel with
  | zero =>
    intro st v _ hcnt
    exact absurd hcnt (Nat.not_lt_zero _)
  | succ fuel ih =>
    intro st v hv hcnt
    unfold cloneVal
    match v with
    | .prim s => rfl
    | .ref a =>
      dsimp only
      rcases hs : lookupSeen st.seen a with _ | a'
      · dsimp only
        rcases hh : lookupHeap h a with _ | o
        · have hv' : (lookupHeap h a).isSome = true := hv
          rw [hh] at hv'
          cases hv'
        · have hmem := lookupHeap_mem h a o hh
          have hoc : objClosed h o = true := by
            have := List.all_eq_true.mp hclosed (a, o) hmem
            exact this
          have hcnt1 : unseenCount h ((a, st.next) :: st.seen) < fuel := by
            have := unseenCount_cons_lt h st.seen a st.next o hs hh
            omega
          match o with
          | .arr elems =>
            dsimp only
            have hall : ∀ w ∈ elems, valRefIn h w = true := by
              intro w hw
              exact List.all_eq_true.mp hoc w hw
            have hgo := cloneListGo_total h fuel (fun st1 v1 => cloneVal h sk fuel st1 v1)
              (fun s1 w w' s2 hc => cloneVal_seenExt h sk fuel s1 w w' s2 hc)
              (fun s1 w hw hc => ih s1 w hw hc) elems
              ⟨(a, st.next) :: st.seen, st.out, st.next + 1⟩ hall hcnt1
            rcases hres : cloneListGo (fun st1 v1 => cloneVal h sk fuel st1 v1)
                ⟨(a, st.next) :: st.seen, st.out, st.next + 1⟩ elems with _ | ⟨elems', st2⟩
            · rw [hres] at hgo
              cases hgo
            · rfl
          | .obj fields =>
            dsimp only
            have hall : ∀ kv ∈ fields.filter (fun kv => ¬ kv.1 ∈ sk),
                valRefIn h kv.2 = true := by
              intro kv hkv
              exact List.all_eq_true.mp hoc kv (List.mem_of_mem_filter hkv)
            have hgo := cloneFieldsGo_total h fuel (fun st1 v1 => cloneVal h sk fuel st1 v1)
              (fun s1 w w' s2 hc => cloneVal_seenExt h sk fuel s1 w w' s2 hc)
              (fun s1 w hw hc => ih s1 w hw hc) _
              ⟨(a, st.next) :: st.seen, st.out, st.next + 1⟩ hall hcnt1
            rcases hres : cloneFieldsGo (fun st1 v1 => cloneVal h sk fuel st1 v1)
                ⟨(a, st.next) :: st.seen, st.out, st.next + 1⟩
                (fields.filter fun kv => ¬ kv.1 ∈ sk) with _ | ⟨fields', st2⟩
            · rw [hres] at hgo
              cases hgo
            · rfl
      · rfl

theorem cloneFieldsGo_keys (cv : CloneSt → JSVal → Option (JSVal × CloneSt)) :
    ∀ (l : List (String × JSVal)) (st : CloneSt) (l' : List (String × JSVal)) (st' : CloneSt),
      cloneFieldsGo cv st l = some (l', st') → l'.map Prod.fst = l.map Prod.fst := by
  intro l
  induction l with
  | nil =>
    intro st l' st' hres
    unfold cloneFieldsGo at hres
    injection hres with h1
    injection h1 with h2 _
    rw [← h2]
  | cons kv rest ih =>
    obtain ⟨k, v⟩ := kv
    intro st l' st' hres
    unfold cloneFieldsGo at hres
    rcases hcv1 : cv st v with _ | ⟨v1, st1⟩
    · rw [hcv1] at hres
      cases hres
    · rw [hcv1] at hres
      dsimp only at hres
      rcases hgo : cloneFieldsGo cv st1 rest with _ | ⟨rest2, st2⟩
      · rw [hgo] at hres
        cases hres
      · rw [hgo] at hres
        injection hres with h1
        injection h1 with h2 _
        rw [← h2]
        simp only [List.map_cons, List.cons.injEq]
        exact ⟨trivial, ih st1 rest2 st2 hgo⟩

/-- C7: `cloneTreeWithoutCycles` terminates on every input object graph over
a closed heap — including pathological graphs in which a node's `children`
array contains an ancestor, a reference cycle not mediated by `parent`
edges — because `seen` is populated before recursing: the default fuel
`h.length + 1` always returns a result; a reference whose source object was
already copied is returned as the existing copy with the state untouched,
rather than recopied; and the copy of a plain object carries exactly the
source's keys minus those in `skipKeys` (by default `parent`), in order. -/
theorem cloneTreeWithoutCycles_ok (h : List (Nat × JSObj)) (sk : List String)
    (v : JSVal) (hclosed : closedHeap h = true) (hv : valRefIn h v = true) :
    (cloneTreeWithoutCycles h sk v).isSome = true ∧
    (∀ (fuel : Nat) (st : CloneSt) (a a' : Nat), lookupSeen st.seen a = some a' →
      cloneVal h sk (fuel + 1) st (JSVal.ref a) = some (JSVal.ref a', st)) ∧
    (∀ (fuel : Nat) (st : CloneSt) (a : Nat) (fields : List (String × JSVal))
        (v' : JSVal) (st' : CloneSt),
      lookupSeen st.seen a = none →
      lookupHeap h a = some (JSObj.obj fields) →
      cloneVal h sk (fuel + 1) st (JSVal.ref a) = some (v', st') →
      v' = JSVal.ref st.next ∧ ∃ fields',
        (st.next, JSObj.obj fields') ∈ st'.out ∧
        fields'.map Prod.fst =
          (fields.filter fun kv => ¬ kv.1 ∈ sk).map Prod.fst) := by
  refine ⟨?_, ?_, ?_⟩
  · show (cloneVal h sk (h.length + 1) ⟨[], [], 0⟩ v).isSome = true
    apply cloneVal_total h sk hclosed _ _ _ hv
    show unseenCount h [] < h.length + 1
    have hle : unseenCount h [] ≤ h.length := List.countP_le_length _
    omega
  · intro fuel st a a' hhit
    simp only [cloneVal, hhit]
  · intro fuel st a fields v' st' hmiss hheap hres
    unfold cloneVal at hres
    dsimp only at hres
    rw [hmiss] at hres
    dsimp only at hres
    rw [hheap] at hres
    dsimp only at hres
    rcases hgo : cloneFieldsGo (fun st1 v1 => cloneVal h sk fuel st1 v1)
        ⟨(a, st.next) :: st.seen, st.out, st.next + 1⟩
        (fields.filter fun kv => ¬ kv.1 ∈ sk) with _ | ⟨fields', st2⟩
    · rw [hgo] at hres
      cases hres
    · rw [hgo] at hres
      injection hres with h1
      injection h1 with h2 h3
      refine ⟨h2.symm, fields', ?_, cloneFieldsGo_keys _ _ _ _ _ hgo⟩
      rw [← h3]
      exact List.mem_cons_self _ _

/-- The cyclic clone input from the spec's scenario: node `A` (address 0) has
a `children` array (address 1) holding node `B` (address 2), whose own
`children` array (address 3) refers back to its ancestor `A`. -/
def twHeap : List (Nat × JSObj) :=
  [(0, .obj [("id", .prim "A"), ("parent", .prim "null"), ("children", .ref 1)]),
   (1, .arr [.ref 2]),
   (2, .obj [("id", .prim "B"), ("children", .ref 3)]),
   (3, .arr [.ref 0])]

/-- Witness: on the cyclic heap `twHeap`, cloning node `A` with
`skipKeys = ["parent"]` terminates, memo hits return the existing copy, and
`parent` keys are dropped from copied objects. -/
theorem cloneTreeWithoutCycles_ok_witness :
    (cloneTreeWithoutCycles twHeap ["parent"] (.ref 0)).isSome = true ∧
    (∀ (fuel : Nat) (st : CloneSt) (a a' : Nat), lookupSeen st.seen a = some a' →
      cloneVal twHeap ["parent"] (fuel + 1) st (JSVal.ref a) = some (JSVal.ref a', st)) ∧
    (∀ (fuel : Nat) (st : CloneSt) (a : Nat) (fields : List (String × JSVal))
        (v' : JSVal) (st' : CloneSt),
      lookupSeen st.seen a = none →
      lookupHeap twHeap a = some (JSObj.obj fields) →
      cloneVal twHeap ["parent"] (fuel + 1) st (JSVal.ref a) = some (v', st') →
      v' = JSVal.ref st.next ∧ ∃ fields',
        (st.next, JSObj.obj fields') ∈ st'.out ∧
        fields'.map Prod.fst =
          (fields.filter fun kv => ¬ kv.1 ∈ ["parent"]).map Prod.fst) :=
  cloneTreeWithoutCycles_ok twHeap ["parent"] (.ref 0) (by decide) (by decide)

/-- A `TreeNode` as stored in the `FamilyTree` store's `Map`, with object
references replaced by node ids (every reference the store hands out is the
mapped object itself, so id-indirection preserves the mutation semantics). -/
structure StoreNode where
  id : String
  label : String
  parent : Option String
  partners : List String
  children : List String
  coParentId : Option String
  image : Option String
deriving DecidableEq

/-- `FamilyTreeNodeInput`: node data without relationship fields. -/
structure FamilyTreeNodeInput where
  id : String
  label : String
  coParentId : Option String := none
  image : Option String := none
deriving DecidableEq

/-- The full `addNode` input (relationship fields optional, defaulted like
the destructuring `partners = [], children = []`). -/
structure NodeInput where
  id : String
  label : String
  parent : Option String := none
  partners : List String := []
  children : List String := []
  coParentId : Option String := none
  image : Option String := none
deriving DecidableEq

/-- `Map.get`. -/
def mapGet : List (String × StoreNode) → String → Option StoreNode
  | [], _ => none
  | (k, v) :: rest, key => if k = key then some v else mapGet rest key

/-- `Map.set`: replace in place, else append (insertion order preserved). -/
def mapSet : List (String × StoreNode) → String → StoreNode → List (String × StoreNode)
  | [], key, v => [(key, v)]
  | (k, v') :: rest, key, v =>
    if k = key then (key, v) :: rest else (k, v') :: mapSet rest key v

/-- One iteration of `addNode`'s `partners.forEach`: if the partner id is
registered, push it onto the new node's `partners`, then push back unless the
partner already lists the new node. -/
def addNodePartnerStep (selfId : String) (m : List (String × StoreNode))
    (pid : String) : List (String × StoreNode) :=
  match mapGet m pid with
  | none => m
  | some _ =>
    let m1 := match mapGet m selfId with
      | none => m
      | some self => mapSet m selfId { self with partners := self.partners ++ [pid] }
    match mapGet m1 pid with
    | none => m1
    | some pn1 =>
      if pn1.partners.any (fun q => q = selfId) then m1
      else mapSet m1 pid { pn1 with partners := pn1.partners ++ [selfId] }

/-- One iteration of `addNode`'s `children.forEach`: if the child id is
registered, push it onto the new node's `children` and repoint the child's
`parent` at the new node. -/
def addNodeChildStep (selfId : String) (m : List (String × StoreNode))
    (cid : String) : List (String × StoreNode) :=
  match mapGet m cid with
  | none => m
  | some _ =>
    let m1 := match mapGet m selfId with
      | none => m
      | some self => mapSet m selfId { self with children := self.children ++ [cid] }
    match mapGet m1 cid with
    | none => m1
    | some cn => mapSet m1 cid { cn with parent := some selfId }

/-- `FamilyTree.addNode`: create the node with empty relations, `set` it into
the map, then wire parent, partners (bidirectional) and children. -/
def addNode (m : List (String × StoreNode)) (d : NodeInput) :
    List (String × StoreNode) :=
  let newNode : StoreNode := ⟨d.id, d.label, none, [], [], d.coParentId, d.image⟩
  let m1 := mapSet m d.id newNode
  let m2 := match d.parent with
    | none => m1
    | some pid =>
      if pid = "" then m1
      else match mapGet m1 pid with
        | none => m1
        | some pn =>
          let m' := mapSet m1 pid { pn with children := pn.children ++ [d.id] }
          match mapGet m' d.id with
          | none => m'
          | some self => mapSet m' d.id { self with parent := some pid }
  let m3 := d.partners.foldl (addNodePartnerStep d.id) m2
  d.children.foldl (addNodeChildStep d.id) m3

/-- `FamilyTree.addParent(childId, parentData, coParentData?)`: returns the
boolean result together with the store after the call. -/
def addParent (m : List (String × StoreNode)) (childId : String)
    (parentData : FamilyTreeNodeInput) (coParentData : Option FamilyTreeNodeInput) :
    Bool × List (String × StoreNode) :=
  match mapGet m childId with
  | none => (false, m)
  | some _ =>
    let m1 := match mapGet m parentData.id with
      | some _ => m
      | none => addNode m ⟨parentData.id, parentData.label, none, [], [],
          parentData.coParentId, parentData.image⟩
    match mapGet m1 childId with
    | none => (false, m1)
    | some child =>
      match child.parent with
      | some _ => (false, m1)
      | none =>
        let m2 := mapSet m1 childId { child with parent := some parentData.id }
        let m3 := match mapGet m2 parentData.id with
          | none => m2
          | some pn => mapSet m2 parentData.id { pn with children := pn.children ++ [childId] }
        match coParentData with
        | none => (true, m3)
        | some cpd =>
          let m4 := match mapGet m3 cpd.id with
            | some _ => m3
            | none => addNode m3 ⟨cpd.id, cpd.label, none, [], [],
                cpd.coParentId, cpd.image⟩
          let m5 := match mapGet m4 parentData.id, mapGet m4 cpd.id with
            | some pn, some cp =>
              if pn.partners.any (fun q => q = cp.id) then m4
              else mapSet m4 parentData.id { pn with partners := pn.partners ++ [cp.id] }
            | _, _ => m4
          let m6 := match mapGet m5 cpd.id with
            | some cp =>
              if cp.partners.any (fun q => q = parentData.id) then m5
              else mapSet m5 cpd.id { cp with partners := cp.partners ++ [parentData.id] }
            | none => m5
          let m7 := match mapGet m6 childId, mapGet m6 cpd.id with
            | some c, some cp => mapSet m6 childId { c with coParentId := some cp.id }
            | _, _ => m6
          (true, m7)

theorem mapGet_mapSet_self (m : List (String × StoreNode)) (k : String) (v : StoreNode) :
    mapGet (mapSet m k v) k = some v := by
  induction m with
  | nil => simp [mapSet, mapGet]
  | cons p rest ih =>
    obtain ⟨k', v'⟩ := p
    unfold mapSet
    by_cases hk : k' = k
    · rw [if_pos hk]
      simp [mapGet]
    · rw [if_neg hk]
      unfold mapGet
      rw [if_neg hk]
      exact ih

theorem mapGet_mapSet_ne (m : List (String × StoreNode)) (k x : String) (v : StoreNode)
    (hne : ¬ x = k) : mapGet (mapSet m k v) x = mapGet m x := by
  induction m with
  | nil =>
    unfold mapSet mapGet
    rw [if_neg (fun hh => hne hh.symm)]
    rfl
  | cons p rest ih =>
    obtain ⟨k', v'⟩ := p
    unfold mapSet
    by_cases hk : k' = k
    · subst hk
      rw [if_pos rfl]
      unfold mapGet
      rw [if_neg (fun hh => hne hh.symm), if_neg (fun hh => hne hh.symm)]
    · rw [if_neg hk]
      unfold mapGet
      by_cases hx : k' = x
      · rw [if_pos hx, if_pos hx]
      · rw [if_neg hx, if_neg hx]
        exact ih

/-- C8: when the child exists and already has a parent, `addParent` returns
`false` and does not give the node a second parent: the child's entry (hence
its `parent` edge) is unchanged, every entry other than `parentData.id` is
unchanged (so the existing parent keeps its `children`), the store is
entirely untouched when `parentData.id` was already registered, and when it
was not, the freshly inserted parent has an empty `children` list — the
child is never appended to it. -/
theorem addParent_rejects_second_parent (m : List (String × StoreNode))
    (childId : String) (pd : FamilyTreeNodeInput) (cpd : Option FamilyTreeNodeInput)
    (child : StoreNode) (p0 : String)
    (hchild : mapGet m childId = some child) (hpar : child.parent = some p0) :
    (addParent m childId pd cpd).1 = false ∧
    mapGet (addParent m childId pd cpd).2 childId = some child ∧
    (∀ x, ¬ x = pd.id → mapGet (addParent m childId pd cpd).2 x = mapGet m x) ∧
    (∀ pn, mapGet m pd.id = some pn → (addParent m childId pd cpd).2 = m) ∧
    (mapGet m pd.id = none →
      mapGet (addParent m childId pd cpd).2 pd.id =
        some ⟨pd.id, pd.label, none, [], [], pd.coParentId, pd.image⟩) := by
  unfold addParent
  rw [hchild]
  dsimp only
  rcases hpd : mapGet m pd.id with _ | pn0
  · have hne : ¬ childId = pd.id := by
      intro he
      rw [he, hpd] at hchild
      cases hchild
    have haddNode : addNode m ⟨pd.id, pd.label, none, [], [], pd.coParentId, pd.image⟩ =
        mapSet m pd.id ⟨pd.id, pd.label, none, [], [], pd.coParentId, pd.image⟩ := rfl
    rw [haddNode, mapGet_mapSet_ne m pd.id childId _ hne, hchild]
    dsimp only
    rw [hpar]
    dsimp only
    refine ⟨rfl, ?_, ?_, ?_, ?_⟩
    · rw [mapGet_mapSet_ne m pd.id childId _ hne, hchild]
    · intro x hx
      exact mapGet_mapSet_ne m pd.id x _ hx
    · intro pn hpn
      cases hpn
    · intro _
      exact mapGet_mapSet_self m pd.id _
  · rw [hchild]
    dsimp only
    rw [hpar]
    dsimp only
    refine ⟨rfl, hchild, fun x _ => rfl, fun pn _ => rfl, fun hnone => ?_⟩
    cases hnone

/-- C10 (implicit): when `addParent` fails because the child already has a
parent but `parentData.id` was not previously registered, the store is
nevertheless modified: the parent node freshly created from `parentData`
remains inserted in the registry even though the call returns `false` — the
failure does not roll the insertion back. -/
theorem addParent_fresh_parent_persists (m : List (String × StoreNode))
    (childId : String) (pd : FamilyTreeNodeInput) (cpd : Option FamilyTreeNodeInput)
    (child : StoreNode) (p0 : String)
    (hchild : mapGet m childId = some child) (hpar : child.parent = some p0)
    (hfresh : mapGet m pd.id = none) :
    (addParent m childId pd cpd).1 = false ∧
    ¬ (addParent m childId pd cpd).2 = m ∧
    mapGet (addParent m childId pd cpd).2 pd.id =
      some ⟨pd.id, pd.label, none, [], [], pd.coParentId, pd.image⟩ := by
  have hne : ¬ childId = pd.id := by
    intro he
    rw [he, hfresh] at hchild
    cases hchild
  have haddNode : addNode m ⟨pd.id, pd.label, none, [], [], pd.coParentId, pd.image⟩ =
      mapSet m pd.id ⟨pd.id, pd.label, none, [], [], pd.coParentId, pd.image⟩ := rfl
  unfold addParent
  rw [hchild]
  dsimp only
  rw [hfresh]
  dsimp only
  rw [haddNode, mapGet_mapSet_ne m pd.id childId _ hne, hchild]
  dsimp only
  rw [hpar]
  dsimp only
  refine ⟨rfl, ?_, mapGet_mapSet_self m pd.id _⟩
  intro he
  have hg := congrArg (fun mm => mapGet mm pd.id) he
  dsimp only at hg
  rw [mapGet_mapSet_self m pd.id _, hfresh] at hg
  cases hg

/-- A two-node store: child `c` already parented by `p1`. -/
def c8Store : List (String × StoreNode) :=
  [("c", ⟨"c", "Child", some "p1", [], [], none, none⟩),
   ("p1", ⟨"p1", "Dad", none, [], ["c"], none, none⟩)]

/-- Witness: `addParent c8Store "c" ⟨"p2", "Mom"⟩` is rejected and changes
nothing but the fresh `p2` insertion. -/
theorem addParent_rejects_second_parent_witness :
    (addParent c8Store "c" ⟨"p2", "Mom", none, none⟩ none).1 = false ∧
    mapGet (addParent c8Store "c" ⟨"p2", "Mom", none, none⟩ none).2 "c" =
      some ⟨"c", "Child", some "p1", [], [], none, none⟩ ∧
    (∀ x, ¬ x = ("p2" : String) →
      mapGet (addParent c8Store "c" ⟨"p2", "Mom", none, none⟩ none).2 x =
        mapGet c8Store x) ∧
    (∀ pn, mapGet c8Store "p2" = some pn →
      (addParent c8Store "c" ⟨"p2", "Mom", none, none⟩ none).2 = c8Store) ∧
    (mapGet c8Store "p2" = none →
      mapGet (addParent c8Store "c" ⟨"p2", "Mom", none, none⟩ none).2 "p2" =
        some ⟨"p2", "Mom", none, [], [], none, none⟩) :=
  addParent_rejects_second_parent c8Store "c" ⟨"p2", "Mom", none, none⟩ none
    ⟨"c", "Child", some "p1", [], [], none, none⟩ "p1" (by rfl) rfl

/-- Witness: the rejected call leaves the freshly created `p2` node in the
store. -/
theorem addParent_fresh_parent_persists_witness :
    (addParent c8Store "c" ⟨"p2", "Mom", none, none⟩ none).1 = false ∧
    ¬ (addParent c8Store "c" ⟨"p2", "Mom", none, none⟩ none).2 = c8Store ∧
    mapGet (addParent c8Store "c" ⟨"p2", "Mom", none, none⟩ none).2 "p2" =
      some ⟨"p2", "Mom", none, [], [], none, none⟩ :=
  addParent_fresh_parent_persists c8Store "c" ⟨"p2", "Mom", none, none⟩ none
    ⟨"c", "Child", some "p1", [], [], none, none⟩ "p1" (by rfl) rfl (by rfl)

/-- In-place mutation of the first list element satisfying `p` (JavaScript
`find` returns the object itself; mutating it edits that one entry). -/
def updateFirst (p : PNode → Bool) (f : PNode → PNode) : List PNode → List PNode
  | [] => []
  | x :: xs => if p x then f x :: xs else x :: updateFirst p f xs

/-- `handleNodePositionUpdate({id, dx, dy})`: find the node, shift its
position by the delta, and recompute the links from the current node
positions; nothing else of the positioned data changes. -/
def handleNodePositionUpdate (W H : ℚ) (d : PositionedTreeData) (i : String)
    (dx dy : ℚ) : PositionedTreeData :=
  match d.nodes.find? (fun n => n.id = i) with
  | none => d
  | some _ =>
    let nodes' := updateFirst (fun n => n.id = i)
      (fun n => { n with x := n.x + dx, y := n.y + dy }) d.nodes
    { d with nodes := nodes', links := calculateLinks W H nodes' }

theorem updateFirst_append (p : PNode → Bool) (f : PNode → PNode)
    (pre : List PNode) (n : PNode) (post : List PNode)
    (hpre : ∀ x ∈ pre, p x = false) (hn : p n = true) :
    updateFirst p f (pre ++ n :: post) = pre ++ f n :: post := by
  induction pre with
  | nil =>
    simp only [List.nil_append]
    unfold updateFirst
    rw [hn]
    simp
  | cons x xs ih =>
    simp only [List.cons_append]
    unfold updateFirst
    rw [hpre x (List.mem_cons_self _ _)]
    simp only [Bool.false_eq_true, if_false, List.cons.injEq, true_and]
    exact ih fun y hy => hpre y (List.mem_cons_of_mem _ hy)

/-- C9: a drag event `{id, dx, dy}` whose id matches a node (the first
occurrence, all earlier entries having different ids) shifts exactly that
node's position by `(dx, dy)`, leaves every other node entry — hence every
other `(x, y)` — untouched, recomputes the link set from the updated node
positions via `calculateLinks`, and keeps `width` and `height` unchanged:
no placement pass is rerun. -/
theorem handleNodePositionUpdate_shifts_one (W H : ℚ) (d : PositionedTreeData)
    (i : String) (dx dy : ℚ) (pre : List PNode) (n : PNode) (post : List PNode)
    (hsplit : d.nodes = pre ++ n :: post) (hn : n.id = i)
    (hpre : ∀ x ∈ pre, ¬ x.id = i) :
    (handleNodePositionUpdate W H d i dx dy).nodes =
      pre ++ { n with x := n.x + dx, y := n.y + dy } :: post ∧
    (handleNodePositionUpdate W H d i dx dy).links =
      calculateLinks W H (pre ++ { n with x := n.x + dx, y := n.y + dy } :: post) ∧
    (handleNodePositionUpdate W H d i dx dy).width = d.width ∧
    (handleNodePositionUpdate W H d i dx dy).height = d.height := by
  have hpref : ∀ x ∈ pre, (fun m : PNode => decide (m.id = i)) x = false := by
    intro x hx
    simp only [decide_eq_false_iff_not]
    exact hpre x hx
  have hfind : d.nodes.find? (fun m => m.id = i) = some n := by
    rw [hsplit, List.find?_append]
    rw [List.find?_eq_none.mpr (fun x hx => by simp [hpre x hx])]
    simp [List.find?_cons_of_pos, hn]
  have hupd : updateFirst (fun m => m.id = i)
      (fun m => { m with x := m.x + dx, y := m.y + dy }) d.nodes =
      pre ++ { n with x := n.x + dx, y := n.y + dy } :: post := by
    rw [hsplit]
    exact updateFirst_append _ _ pre n post hpref (by simp [hn])
  unfold handleNodePositionUpdate
  rw [hfind]
  dsimp only
  rw [hupd]
  exact ⟨rfl, rfl, rfl, rfl⟩

/-- The spec's drag scenario: node `a` at `(100, 200)` receives
`dx = 15, dy = -5`; node `b` stays put. -/
def c9a : PNode := ⟨"a", 100, 200, 1, none, [], [], none⟩

def c9b : PNode := ⟨"b", 400, 200, 1, none, [], [], none⟩

def c9data : PositionedTreeData := ⟨[c9a, c9b], [], 1000, 500⟩

/-- Witness: dragging `a` by `(15, -5)` in `c9data` moves only `a` (to
`(115, 195)`), recomputes links, and keeps the canvas size. -/
theorem handleNodePositionUpdate_shifts_one_witness :
    (handleNodePositionUpdate 120 120 c9data "a" 15 (-5)).nodes =
      [] ++ { c9a with x := c9a.x + 15, y := c9a.y + (-5) } :: [c9b] ∧
    (handleNodePositionUpdate 120 120 c9data "a" 15 (-5)).links =
      calculateLinks 120 120 ([] ++ { c9a with x := c9a.x + 15, y := c9a.y + (-5) } :: [c9b]) ∧
    (handleNodePositionUpdate 120 120 c9data "a" 15 (-5)).width = c9data.width ∧
    (handleNodePositionUpdate 120 120 c9data "a" 15 (-5)).height = c9data.height :=
  handleNodePositionUpdate_shifts_one 120 120 c9data "a" 15 (-5) [] c9a [c9b]
    (by rfl) (by decide) (by decide)

/-- `FamilyTree.getRootNodes()`: the stored nodes (insertion order) whose
`parent?.id` is falsy — no parent recorded, or a parent with an empty id. -/
def getRootNodes (m : List (String × StoreNode)) : List StoreNode :=
  (m.map Prod.snd).filter fun n =>
    match n.parent with
    | none => true
    | some pid => pid = ""

/-- `getRootNode()` of `Tree.vue`: `null` when there are no roots, else the
first root whose `children` list is non-empty (the source predicate
`root.children?.length ?? 0 > 0` parses as `children?.length ?? (0 > 0)`,
whose truthiness is exactly "children present and non-empty"), else the
first root. -/
def getRootNode (m : List (String × StoreNode)) : Option StoreNode :=
  let roots := getRootNodes m
  if roots.length = 0 then none
  else
    match roots.find? (fun r => ¬ r.children = []) with
    | some r => some r
    | none => roots.head?

/-- The layout watcher's dispatch on `getRootNode()`: a missing root yields
the empty layout; otherwise the positioning pipeline (abstracted as `build`)
runs on the selected root. -/
def watchLayout (m : List (String × StoreNode))
    (build : StoreNode → PositionedTreeData) : PositionedTreeData :=
  match getRootNode m with
  | none => ⟨[], [], 0, 0⟩
  | some r => build r

/-- C6: the engine's traversal root is the first of `getRootNodes()` (the
stored nodes lacking a parent) whose `children` list is non-empty; when
every root is childless it falls back to the first root; and when there are
no roots at all the watcher produces the empty layout — no nodes, no links,
zero width and height. -/
theorem getRootNode_selection (m : List (String × StoreNode))
    (build : StoreNode → PositionedTreeData) :
    (∀ n ∈ getRootNodes m, n ∈ m.map Prod.snd ∧
      (n.parent = none ∨ n.parent = some "")) ∧
    (getRootNodes m = [] → watchLayout m build = ⟨[], [], 0, 0⟩) ∧
    (∀ r rs, getRootNodes m = r :: rs → (∀ x ∈ r :: rs, x.children = []) →
      watchLayout m build = build r) ∧
    (∀ pre x post, getRootNodes m = pre ++ x :: post →
      (∀ y ∈ pre, y.children = []) → ¬ x.children = [] →
      watchLayout m build = build x) := by
  refine ⟨?_, ?_, ?_, ?_⟩
  · intro n hn
    rcases List.mem_filter.mp hn with ⟨hmem, hpred⟩
    refine ⟨hmem, ?_⟩
    rcases hp : n.parent with _ | pid
    · exact Or.inl rfl
    · rw [hp] at hpred
      dsimp only at hpred
      simp only [decide_eq_true_eq] at hpred
      right
      rw [hpred]
  · intro hroots
    unfold watchLayout getRootNode
    rw [hroots]
    rfl
  · intro r rs hroots hall
    unfold watchLayout getRootNode
    rw [hroots]
    have hlen : ¬ (r :: rs).length = 0 := by simp
    rw [if_neg hlen]
    have hnone : (r :: rs).find? (fun x => ¬ x.children = []) = none := by
      rw [List.find?_eq_none]
      intro x hx
      simp [hall x hx]
    rw [hnone]
    rfl
  · intro pre x post hroots hpre hx
    unfold watchLayout getRootNode
    rw [hroots]
    have hlen : ¬ (pre ++ x :: post).length = 0 := by simp
    rw [if_neg hlen]
    have hfind : (pre ++ x :: post).find? (fun r => ¬ r.children = []) = some x := by
      rw [List.find?_append]
      rw [List.find?_eq_none.mpr (fun y hy => by simp [hpre y hy])]
      simp [List.find?_cons_of_pos, hx]
    rw [hfind]

def c6a : StoreNode := ⟨"a", "A", some "z", [], [], none, none⟩

def c6r1 : StoreNode := ⟨"r1", "R1", none, [], [], none, none⟩

def c6r2 : StoreNode := ⟨"r2", "R2", none, [], ["c"], none, none⟩

def c6c : StoreNode := ⟨"c", "C", some "r2", [], [], none, none⟩

/-- A store with two roots: childless `r1` first, `r2` with a child second;
`a` and `c` are parented. -/
def c6Store : List (String × StoreNode) :=
  [("a", c6a), ("r1", c6r1), ("r2", c6r2), ("c", c6c)]

def c6build : StoreNode → PositionedTreeData :=
  fun r => ⟨[], [], r.children.length, 0⟩

/-- Witness: on `c6Store` the childless first root `r1` is skipped and `r2`
drives the layout; on the empty store the watcher emits the empty layout. -/
theorem getRootNode_selection_witness :
    watchLayout c6Store c6build = c6build c6r2 ∧
    watchLayout [] c6build = ⟨[], [], 0, 0⟩ :=
  ⟨(getRootNode_selection c6Store c6build).2.2.2 [c6r1] c6r2 [] (by rfl)
      (by decide) (by decide),
    (getRootNode_selection [] c6build).2.1 (by rfl)⟩
